import Mathlib

/-
Verification of the go-lru repository: a fixed-capacity TTL/LRU cache built
on a binary min-heap (Go package container/heap) with a lazy-expiration
comparator, co-maintained with a key-to-entry map.

The model below is a shallow embedding of the converged design in the source
(the items struct holding keyToItem plus pq, with Cache.Put/Get/Remove).
Pointer sharing between the map and the heap backing array is modelled with
an arena: items live in a store, and both the map and the heap array hold
arena ids. Keys and values are Nat, times are Int (time.Before is <).
The eviction callback is modelled as an event log carried by the cache.
-/

set_option maxHeartbeats 1000000

namespace Lru

/-- Item mirrors the item struct of the source: key, value, absolute expire
time, and the heap bookkeeping index maintained by Swap. -/
structure Item where
  k : Nat
  v : Nat
  expire : Int
  index : Int
deriving Repr, DecidableEq

instance : Inhabited Item := ⟨⟨0, 0, 0, 0⟩⟩

/-- Items mirrors the items struct: an arena store of item records (modelling
the Go pointers), keyToItem mapping a key to the arena id of its item, and pq,
the heap backing array of arena ids. -/
structure Items where
  store : List Item
  keyToItem : List (Nat × Nat)
  pq : List Nat
deriving Repr, DecidableEq

/-- Reads the arena record behind an id (dereferences an item pointer). -/
def getItem (s : Items) (id : Nat) : Item := s.store.getD id default

/-- Overwrites the arena record behind an id (a write through an item pointer). -/
def setStore (s : Items) (id : Nat) (it : Item) : Items :=
  { s with store := s.store.set id it }

/-- Arena id held at heap position i. -/
def idAt (s : Items) (i : Nat) : Nat := s.pq.getD i 0

/-- Item at heap position i. -/
def itemAt (s : Items) (i : Nat) : Item := getItem s (idAt s i)

/-- Expire time of the item at heap position i. -/
def expAt (s : Items) (i : Nat) : Int := (itemAt s i).expire

/-- Key of the item at heap position i. -/
def keyAt (s : Items) (i : Nat) : Nat := (itemAt s i).k

/-- Go map assignment m[k] = id: any previous binding of k is replaced. -/
def mapInsert (m : List (Nat × Nat)) (k id : Nat) : List (Nat × Nat) :=
  (k, id) :: m.filter (fun p => p.1 != k)

/-- Go delete(m, k). -/
def mapErase (m : List (Nat × Nat)) (k : Nat) : List (Nat × Nat) :=
  m.filter (fun p => p.1 != k)

/-- Less of the source (items.Less): true if the item at position i is already
expired at the clock reading taken at comparison time, or else if its expire
time is strictly before that of the item at position j. -/
def lessB (s : Items) (now : Int) (i j : Nat) : Bool :=
  decide ((itemAt s i).expire < now) || decide ((itemAt s i).expire < (itemAt s j).expire)

/-- Swap of the source (items.Swap): exchange the two heap slots and repair the
index field stored in each of the two items, in source order (pq[i].index = i
first, then pq[j].index = j). -/
def swapIt (s : Items) (i j : Nat) : Items :=
  let a := idAt s i
  let b := idAt s j
  let s1 := { s with pq := (s.pq.set i b).set j a }
  let s2 := setStore s1 b { getItem s1 b with index := (i : Int) }
  setStore s2 a { getItem s2 a with index := (j : Int) }

/-- Push of the source (items.Push): allocate the item at the end of the arena,
record its heap position, bind its key in keyToItem, and append it to pq. -/
def pushItem (s : Items) (it : Item) : Items :=
  let n := s.pq.length
  let id := s.store.length
  { store := s.store ++ [{ it with index := (n : Int) }],
    keyToItem := mapInsert s.keyToItem it.k id,
    pq := s.pq ++ [id] }

/-- Pop of the source (items.Pop): take the last heap slot, set its index to the
-1 sentinel, shrink pq, delete its key from keyToItem, and return it. -/
def popItem (s : Items) : Items × Nat :=
  let n := s.pq.length
  let id := s.pq.getD (n - 1) 0
  let s1 := setStore s id { getItem s id with index := (-1 : Int) }
  ({ s1 with pq := s1.pq.dropLast, keyToItem := mapErase s1.keyToItem (getItem s id).k }, id)

/-- Fuel-indexed version of the sift-up loop of container/heap, with the parent
position (j - 1) / 2 inlined. The fuel only bounds the recursion; fuel of j+1
makes it equal to the unbounded Go loop. -/
def upF (now : Int) : Nat → Items → Nat → Items
  | 0, s, _ => s
  | fuel + 1, s, j =>
    if (j - 1) / 2 = j then s
    else if lessB s now j ((j - 1) / 2) then upF now fuel (swapIt s ((j - 1) / 2) j) ((j - 1) / 2)
    else s

/-- Sift-up of container/heap (func up). -/
def heapUp (now : Int) (s : Items) (j : Nat) : Items := upF now (j + 1) s j

/-- Child of position i selected by the sift-down loop: the right child when it
is in range and compares as Less than the left child, else the left child. -/
def chooseChild (now : Int) (s : Items) (i n : Nat) : Nat :=
  if 2 * i + 2 < n ∧ lessB s now (2 * i + 2) (2 * i + 1) = true then 2 * i + 2 else 2 * i + 1

/-- Fuel-indexed version of the sift-down loop of container/heap, returning the
final position of the sifted element. Fuel of n makes it equal to the Go loop. -/
def downF (now : Int) : Nat → Items → Nat → Nat → Items × Nat
  | 0, s, i, _ => (s, i)
  | fuel + 1, s, i, n =>
    if 2 * i + 1 ≥ n then (s, i)
    else if lessB s now (chooseChild now s i n) i then
      downF now fuel (swapIt s i (chooseChild now s i n)) (chooseChild now s i n) n
    else (s, i)

/-- Sift-down of container/heap (func down): the Bool is the moved result i > i0. -/
def heapDown (now : Int) (s : Items) (i0 n : Nat) : Items × Bool :=
  let p := downF now n s i0 n
  (p.1, decide (i0 < p.2))

/-- heap.Push: interface Push then sift the new last element up. -/
def heapPush (now : Int) (s : Items) (it : Item) : Items :=
  let s1 := pushItem s it
  heapUp now s1 (s1.pq.length - 1)

/-- heap.Pop: swap the root with the last slot, sift the moved element down
over the shrunk range, then interface Pop. Returns the popped arena id. -/
def heapPop (now : Int) (s : Items) : Items × Nat :=
  let n := s.pq.length - 1
  let s1 := swapIt s 0 n
  let s2 := (heapDown now s1 0 n).1
  popItem s2

/-- heap.Fix: sift down from the changed position; if nothing moved, sift up. -/
def heapFix (now : Int) (s : Items) (i : Nat) : Items :=
  let p := heapDown now s i s.pq.length
  if p.2 then p.1 else heapUp now p.1 i

/-- heap.Remove: move the last slot into position i (unless i is the last slot),
repair by sift-down then sift-up, then interface Pop. Returns the popped id. -/
def heapRemove (now : Int) (s : Items) (i : Nat) : Items × Nat :=
  let n := s.pq.length - 1
  if i = n then popItem s
  else
    let s1 := swapIt s i n
    let p := heapDown now s1 i n
    let s3 := if p.2 then p.1 else heapUp now p.1 i
    popItem s3

/-- Cache mirrors the Cache struct: the two co-maintained indexes, the fixed
capacity (Go int), and the ttl. The mutex serializes operations and is not
part of the sequential state; the onEvicted callback is modelled by evLog,
the list of values passed to the callback so far, in call order. -/
structure Cache where
  items : Items
  size : Int
  ttl : Int
  evLog : List Nat
deriving Repr, DecidableEq

/-- New of the source: no validation of size whatsoever; makeItems builds the
two empty indexes (heap.Init on an empty heap is a no-op and is dropped). -/
def New (size : Int) (ttl : Int) : Cache :=
  { items := ⟨[], [], []⟩, size := size, ttl := ttl, evLog := [] }

/-- evict of the source: heap.Pop the root, call onEvicted with its value. -/
def evict (c : Cache) (now : Int) : Cache :=
  let p := heapPop now c.items
  { c with items := p.1, evLog := c.evLog ++ [(getItem p.1 p.2).v] }

/-- refresh of the source: bump the expire time through the shared pointer and
repair the heap position with heap.Fix at the stored index. -/
def refresh (c : Cache) (now : Int) (id : Nat) : Cache :=
  let s1 := setStore c.items id { getItem c.items id with expire := now + c.ttl }
  { c with items := heapFix now s1 ((getItem s1 id).index).toNat }

/-- update of the source: overwrite the value through the shared pointer, then
refresh. -/
def update (c : Cache) (now : Int) (id : Nat) (v : Nat) : Cache :=
  let s1 := setStore c.items id { getItem c.items id with v := v }
  refresh { c with items := s1 } now id

/-- add of the source: heap.Push the freshly allocated item. -/
def add (c : Cache) (now : Int) (it : Item) : Cache :=
  { c with items := heapPush now c.items it }

/-- Put of the source: overwrite-and-refresh on a hit; otherwise evict when at
capacity, then insert a new item expiring at now + ttl. -/
def Put (c : Cache) (now : Int) (k v : Nat) : Cache :=
  match List.lookup k c.items.keyToItem with
  | some id => update c now id v
  | none =>
    let c1 := if (c.items.pq.length : Int) = c.size then evict c now else c
    add c1 now { k := k, v := v, expire := now + c.ttl, index := 0 }

/-- Get of the source: a miss returns the zero value and false with no side
effect; a hit refreshes the entry and returns its value with true. -/
def Get (c : Cache) (now : Int) (k : Nat) : (Nat × Bool) × Cache :=
  match List.lookup k c.items.keyToItem with
  | none => ((0, false), c)
  | some id =>
    let c1 := refresh c now id
    (((getItem c1.items id).v, true), c1)

/-- delete of the source: heap.Remove at the stored index, then the callback
with the removed value. -/
def deleteItem (c : Cache) (now : Int) (id : Nat) : Cache :=
  let p := heapRemove now c.items ((getItem c.items id).index).toNat
  { c with items := p.1, evLog := c.evLog ++ [(getItem c.items id).v] }

/-- Remove of the source: a miss is a no-op; a hit deletes the entry. -/
def Remove (c : Cache) (now : Int) (k : Nat) : Cache :=
  match List.lookup k c.items.keyToItem with
  | none => c
  | some id => deleteItem c now id

/-- Operation alphabet for reachability: each public call with the clock value
it observes. -/
inductive Op where
  | put (now : Int) (k v : Nat)
  | get (now : Int) (k : Nat)
  | remove (now : Int) (k : Nat)
deriving Repr, DecidableEq

/-- Clock value observed by an operation. -/
def Op.time : Op → Int
  | .put n _ _ => n
  | .get n _ => n
  | .remove n _ => n

/-- Applies one operation to a cache. -/
def applyOp (c : Cache) : Op → Cache
  | .put n k v => Put c n k v
  | .get n k => (Get c n k).2
  | .remove n k => Remove c n k

/-- Runs a sequence of operations. -/
def runOps (c : Cache) (ops : List Op) : Cache := ops.foldl applyOp c

/-- State reached from New by a sequence of operations. -/
def reach (size ttl : Int) (ops : List Op) : Cache := runOps (New size ttl) ops

/-- Checks that operation clock values are nondecreasing and at least t. -/
def monoB : Int → List Op → Bool
  | _, [] => true
  | t, op :: rest => decide (t ≤ op.time) && monoB op.time rest

/-- Clock value after running the sequence (t when the sequence is empty). -/
def endTime : Int → List Op → Int
  | t, [] => t
  | _, op :: rest => endTime op.time rest

/-- Checks that a sequence consists of Put operations only. -/
def putsOnly : List Op → Bool
  | [] => true
  | .put _ _ _ :: rest => putsOnly rest
  | _ => false

/-- Keys of the Put operations of a sequence, in order. -/
def putKeys : List Op → List Nat
  | [] => []
  | .put _ k _ :: rest => k :: putKeys rest
  | _ :: rest => putKeys rest

/-- Key set resident in the heap, read off the backing array. -/
def pqKeys (s : Items) : List Nat := s.pq.map (fun id => (getItem s id).k)

/-- Lazy-expiration ordering on expire times: the le relation that the heap
order maintains. x is at most y when x is already expired at time now, or x is
at most y as a timestamp. -/
def leE (now x y : Int) : Prop := x < now ∨ x ≤ y

/-- Heap-order invariant over the first n positions: every parent-child pair
of the implicit binary tree satisfies the lazy-expiration le relation. -/
def HOrd (s : Items) (now : Int) (n : Nat) : Prop :=
  ∀ c : Nat, 0 < c → c < n → leE now (expAt s ((c - 1) / 2)) (expAt s c)

/-- SameBuf s s1 records what the sifting phases of the heap leave untouched:
the key map, the arena size, the heap slots up to permutation, and the key,
value and expire fields of every arena record (only index fields and slot
order may change). -/
def SameBuf (s s1 : Items) : Prop :=
  s1.keyToItem = s.keyToItem ∧ s1.store.length = s.store.length ∧ s1.pq.Perm s.pq ∧
  ∀ id : Nat, (getItem s1 id).k = (getItem s id).k ∧ (getItem s1 id).v = (getItem s id).v ∧
    (getItem s1 id).expire = (getItem s id).expire

/-- Structural well-formedness of the two co-maintained indexes: heap slots
hold distinct valid arena ids, resident keys are distinct, keyToItem binds
exactly the resident keys to their heap items, keyToItem has no duplicate
keys, and every stored index field equals the true heap position. -/
structure SWF (s : Items) : Prop where
  nodup : s.pq.Nodup
  valid : ∀ id ∈ s.pq, id < s.store.length
  keysNodup : (pqKeys s).Nodup
  mapNodup : (s.keyToItem.map Prod.fst).Nodup
  mapKeys : ∀ k id, List.lookup k s.keyToItem = some id ↔ (id ∈ s.pq ∧ (getItem s id).k = k)
  index : ∀ i, i < s.pq.length → (itemAt s i).index = (i : Int)

/-- Cache invariant: the indexes are structurally well-formed, the heap order
holds at time t, and the number of resident entries is at most the capacity. -/
def CInv (c : Cache) (t : Int) : Prop :=
  SWF c.items ∧ HOrd c.items t c.items.pq.length ∧ (c.items.pq.length : Int) ≤ c.size

/-! ### List helpers -/

theorem getD_set_self {α : Type} (d : α) (l : List α) (i : Nat) (b : α) (h : i < l.length) :
    (l.set i b).getD i d = b := by
  simp [List.getD_eq_getElem?_getD, List.getElem?_set, h]

theorem getD_set_ne {α : Type} (d : α) (l : List α) (i j : Nat) (b : α) (h : i ≠ j) :
    (l.set i b).getD j d = l.getD j d := by
  simp [List.getD_eq_getElem?_getD, List.getElem?_set, h]

theorem getD_append_left {α : Type} (d : α) (l m : List α) (i : Nat) (h : i < l.length) :
    (l ++ m).getD i d = l.getD i d := by
  simp [List.getD_eq_getElem?_getD, List.getElem?_append, h]

theorem getD_append_last {α : Type} (d : α) (l : List α) (b : α) :
    (l ++ [b]).getD l.length d = b := by
  simp [List.getD_eq_getElem?_getD]

theorem getD_dropLast {α : Type} (d : α) (l : List α) (i : Nat) (h : i + 1 < l.length) :
    l.dropLast.getD i d = l.getD i d := by
  simp [List.getD_eq_getElem?_getD, List.getElem?_dropLast, show i < l.length - 1 by omega,
    List.getElem?_eq_getElem (show i < l.length by omega)]

theorem getD_cons_perm {α : Type} (d : α) (x : α) (xs : List α) (m : Nat) (hm : m < xs.length) :
    (xs.getD m d :: xs.set m x).Perm (x :: xs) := by
  induction xs generalizing m with
  | nil => simp at hm
  | cons y ys ih =>
    cases m with
    | zero => simpa using List.Perm.swap x y ys
    | succ k =>
      have hk : k < ys.length := by simpa using hm
      have h1 : (ys.getD k d :: y :: ys.set k x).Perm (y :: ys.getD k d :: ys.set k x) :=
        List.Perm.swap _ _ _
      have h2 : (y :: ys.getD k d :: ys.set k x).Perm (y :: x :: ys) :=
        (ih k hk).cons y
      have h3 : (y :: x :: ys).Perm (x :: y :: ys) := List.Perm.swap _ _ _
      simpa using (h1.trans h2).trans h3

theorem set_set_perm {α : Type} (d : α) (l : List α) (i j : Nat)
    (hi : i < l.length) (hj : j < l.length) :
    ((l.set i (l.getD j d)).set j (l.getD i d)).Perm l := by
  induction l generalizing i j with
  | nil => simp at hi
  | cons x xs ih =>
    cases i with
    | zero =>
      cases j with
      | zero => simp
      | succ m =>
        have hm : m < xs.length := by simpa using hj
        simpa using getD_cons_perm d x xs m hm
    | succ n =>
      cases j with
      | zero =>
        have hn : n < xs.length := by simpa using hi
        simpa using getD_cons_perm d x xs n hn
      | succ m =>
        have hn : n < xs.length := by simpa using hi
        have hm : m < xs.length := by simpa using hj
        simpa using (ih n m hn hm).cons x

/-! ### Lemmas on the key map -/

theorem lookup_mapErase_self (m : List (Nat × Nat)) (k : Nat) :
    List.lookup k (mapErase m k) = none := by
  induction m with
  | nil => rfl
  | cons p rest ih =>
    cases hp : (p.1 == k) with
    | true =>
      simp only [mapErase, List.filter, bne, hp, Bool.not_true] at ih ⊢
      exact ih
    | false =>
      have hk : (k == p.1) = false := by
        simp only [beq_eq_false_iff_ne] at hp ⊢
        exact fun hh => hp hh.symm
      simp only [mapErase, List.filter, bne, hp, Bool.not_false] at ih ⊢
      simp only [List.lookup, hk]
      exact ih

theorem lookup_mapErase_ne (m : List (Nat × Nat)) (k k' : Nat) (h : k' ≠ k) :
    List.lookup k' (mapErase m k) = List.lookup k' m := by
  induction m with
  | nil => rfl
  | cons p rest ih =>
    cases hp : (p.1 == k) with
    | true =>
      have hp2 : p.1 = k := by simpa using hp
      have hk : (k' == p.1) = false := by
        simp only [beq_eq_false_iff_ne]
        exact fun hh => h (by rw [hh, hp2])
      simp only [mapErase, List.filter, bne, hp, Bool.not_true] at ih ⊢
      simp only [List.lookup, hk]
      exact ih
    | false =>
      simp only [mapErase, List.filter, bne, hp, Bool.not_false] at ih ⊢
      simp only [List.lookup]
      cases hc : (k' == p.1) with
      | true => rfl
      | false => exact ih

theorem lookup_mapInsert_self (m : List (Nat × Nat)) (k id : Nat) :
    List.lookup k (mapInsert m k id) = some id := by
  simp [mapInsert, List.lookup]

theorem lookup_mapInsert_ne (m : List (Nat × Nat)) (k id k' : Nat) (h : k' ≠ k) :
    List.lookup k' (mapInsert m k id) = List.lookup k' m := by
  simp only [mapInsert, List.lookup]
  rw [show (k' == k) = false by simpa using h]
  exact lookup_mapErase_ne m k k' h

theorem mapErase_keys_sublist (m : List (Nat × Nat)) (k : Nat) :
    ((mapErase m k).map Prod.fst).Sublist (m.map Prod.fst) :=
  ((List.filter_sublist m).map Prod.fst)

theorem mapErase_keys_nodup (m : List (Nat × Nat)) (k : Nat)
    (h : (m.map Prod.fst).Nodup) : ((mapErase m k).map Prod.fst).Nodup :=
  (mapErase_keys_sublist m k).nodup h

theorem mapInsert_keys_nodup (m : List (Nat × Nat)) (k id : Nat)
    (h : (m.map Prod.fst).Nodup) : ((mapInsert m k id).map Prod.fst).Nodup := by
  refine List.Nodup.cons ?_ (mapErase_keys_nodup m k h)
  intro hk
  rcases List.mem_map.1 hk with ⟨p, hp, hpk⟩
  have := List.of_mem_filter hp
  simp [hpk] at this

/-! ### Lemmas on Swap -/

theorem idAt_mem {s : Items} {m : Nat} (hm : m < s.pq.length) : idAt s m ∈ s.pq := by
  have : idAt s m = s.pq[m] := by
    simp [idAt, List.getD_eq_getElem?_getD, List.getElem?_eq_getElem hm]
  rw [this]
  exact List.getElem_mem hm

theorem idAt_inj {s : Items} (h : s.pq.Nodup) {m m' : Nat}
    (hm : m < s.pq.length) (hm' : m' < s.pq.length) (he : idAt s m = idAt s m') : m = m' := by
  have he2 : s.pq[m] = s.pq[m'] := by
    simpa [idAt, List.getD_eq_getElem?_getD, List.getElem?_eq_getElem, hm, hm'] using he
  exact (List.Nodup.getElem_inj_iff h).1 he2

theorem swap_keyToItem (s : Items) (i j : Nat) : (swapIt s i j).keyToItem = s.keyToItem := rfl

theorem swap_pq (s : Items) (i j : Nat) :
    (swapIt s i j).pq = (s.pq.set i (idAt s j)).set j (idAt s i) := rfl

theorem swap_pq_length (s : Items) (i j : Nat) : (swapIt s i j).pq.length = s.pq.length := by
  simp [swap_pq]

theorem swap_store_length (s : Items) (i j : Nat) :
    (swapIt s i j).store.length = s.store.length := by
  simp [swapIt, setStore]

theorem swap_pq_perm (s : Items) (i j : Nat) (hi : i < s.pq.length) (hj : j < s.pq.length) :
    (swapIt s i j).pq.Perm s.pq := by
  rw [swap_pq]
  exact set_set_perm 0 s.pq i j hi hj

theorem swap_idAt (s : Items) (i j m : Nat) (hi : i < s.pq.length) (hj : j < s.pq.length) :
    idAt (swapIt s i j) m =
      if m = j then idAt s i else if m = i then idAt s j else idAt s m := by
  show ((s.pq.set i (idAt s j)).set j (idAt s i)).getD m 0 = _
  by_cases hmj : m = j
  · subst hmj
    rw [if_pos rfl, getD_set_self _ _ _ _ (by simpa using hj)]
  · rw [if_neg hmj, getD_set_ne _ _ _ _ _ (fun hh => hmj hh.symm)]
    by_cases hmi : m = i
    · subst hmi
      rw [if_pos rfl, getD_set_self _ _ _ _ hi]
    · rw [if_neg hmi, getD_set_ne _ _ _ _ _ (fun hh => hmi hh.symm)]
      rfl

theorem getItem_setStore_self (s : Items) (id1 : Nat) (it : Item) (h1 : id1 < s.store.length) :
    getItem (setStore s id1 it) id1 = it := by
  show (s.store.set id1 it).getD id1 default = it
  exact getD_set_self _ _ _ _ h1

theorem getItem_setStore_ne (s : Items) (id1 : Nat) (it : Item) (id : Nat) (h : id ≠ id1) :
    getItem (setStore s id1 it) id = getItem s id := by
  show (s.store.set id1 it).getD id default = s.store.getD id default
  exact getD_set_ne _ _ _ _ _ (fun hh => h hh.symm)

theorem getItem_setStore_index (s : Items) (id1 : Nat) (x : Int) (id : Nat) :
    (getItem (setStore s id1 { getItem s id1 with index := x }) id).k = (getItem s id).k ∧
    (getItem (setStore s id1 { getItem s id1 with index := x }) id).v = (getItem s id).v ∧
    (getItem (setStore s id1 { getItem s id1 with index := x }) id).expire
      = (getItem s id).expire := by
  by_cases h1 : id1 < s.store.length
  · by_cases h : id = id1
    · subst h
      rw [getItem_setStore_self s id _ h1]
      exact ⟨rfl, rfl, rfl⟩
    · rw [getItem_setStore_ne s id1 _ id h]
      exact ⟨rfl, rfl, rfl⟩
  · have h2 : s.store.set id1 { getItem s id1 with index := x } = s.store :=
      List.set_eq_of_length_le (Nat.le_of_not_lt h1)
    show ((s.store.set id1 _).getD id default).k = _ ∧ ((s.store.set id1 _).getD id default).v
      = _ ∧ ((s.store.set id1 _).getD id default).expire = _
    rw [h2]
    exact ⟨rfl, rfl, rfl⟩

theorem swap_content (s : Items) (i j : Nat) (id : Nat) :
    (getItem (swapIt s i j) id).k = (getItem s id).k ∧
    (getItem (swapIt s i j) id).v = (getItem s id).v ∧
    (getItem (swapIt s i j) id).expire = (getItem s id).expire := by
  have h2 := getItem_setStore_index
    ({ s with pq := (s.pq.set i (idAt s j)).set j (idAt s i) }) (idAt s j) (i : Int) id
  set s2 := setStore { s with pq := (s.pq.set i (idAt s j)).set j (idAt s i) } (idAt s j)
    { getItem { s with pq := (s.pq.set i (idAt s j)).set j (idAt s i) } (idAt s j)
      with index := (i : Int) } with hs2
  have h3 := getItem_setStore_index s2 (idAt s i) (j : Int) id
  have hgi : getItem { s with pq := (s.pq.set i (idAt s j)).set j (idAt s i) } id
      = getItem s id := rfl
  refine ⟨?_, ?_, ?_⟩
  · exact h3.1.trans h2.1
  · exact h3.2.1.trans h2.2.1
  · exact h3.2.2.trans h2.2.2

theorem swap_sameBuf (s : Items) (i j : Nat) (hi : i < s.pq.length) (hj : j < s.pq.length) :
    SameBuf s (swapIt s i j) :=
  ⟨swap_keyToItem s i j, swap_store_length s i j, swap_pq_perm s i j hi hj,
    fun id => swap_content s i j id⟩

theorem sameBuf_refl (s : Items) : SameBuf s s :=
  ⟨rfl, rfl, List.Perm.refl _, fun _ => ⟨rfl, rfl, rfl⟩⟩

theorem sameBuf_trans {s t u : Items} (h1 : SameBuf s t) (h2 : SameBuf t u) : SameBuf s u := by
  obtain ⟨a1, b1, c1, d1⟩ := h1
  obtain ⟨a2, b2, c2, d2⟩ := h2
  exact ⟨a2.trans a1, b2.trans b1, c2.trans c1,
    fun id => ⟨(d2 id).1.trans (d1 id).1, (d2 id).2.1.trans (d1 id).2.1,
      (d2 id).2.2.trans (d1 id).2.2⟩⟩

theorem sameBuf_pq_length {s t : Items} (h : SameBuf s t) : t.pq.length = s.pq.length :=
  h.2.2.1.length_eq

theorem swap_expAt (s : Items) (i j m : Nat) (hi : i < s.pq.length) (hj : j < s.pq.length) :
    expAt (swapIt s i j) m =
      if m = j then expAt s i else if m = i then expAt s j else expAt s m := by
  have hc := (swap_content s i j (idAt (swapIt s i j) m)).2.2
  rw [expAt, itemAt, hc, swap_idAt s i j m hi hj]
  by_cases hmj : m = j
  · rw [if_pos hmj, if_pos hmj]
    rfl
  · rw [if_neg hmj, if_neg hmj]
    by_cases hmi : m = i
    · rw [if_pos hmi, if_pos hmi]
      rfl
    · rw [if_neg hmi, if_neg hmi]
      rfl

theorem swap_keyAt (s : Items) (i j m : Nat) (hi : i < s.pq.length) (hj : j < s.pq.length) :
    keyAt (swapIt s i j) m =
      if m = j then keyAt s i else if m = i then keyAt s j else keyAt s m := by
  have hc := (swap_content s i j (idAt (swapIt s i j) m)).1
  rw [keyAt, itemAt, hc, swap_idAt s i j m hi hj]
  by_cases hmj : m = j
  · rw [if_pos hmj, if_pos hmj]
    rfl
  · rw [if_neg hmj, if_neg hmj]
    by_cases hmi : m = i
    · rw [if_pos hmi, if_pos hmi]
      rfl
    · rw [if_neg hmi, if_neg hmi]
      rfl

theorem swap_index_a (s : Items) (i j : Nat) (ha : idAt s i < s.store.length) :
    (getItem (swapIt s i j) (idAt s i)).index = (j : Int) := by
  rw [show swapIt s i j = setStore
      (setStore { s with pq := (s.pq.set i (idAt s j)).set j (idAt s i) } (idAt s j)
        { getItem { s with pq := (s.pq.set i (idAt s j)).set j (idAt s i) } (idAt s j)
          with index := (i : Int) }) (idAt s i)
      { getItem (setStore { s with pq := (s.pq.set i (idAt s j)).set j (idAt s i) } (idAt s j)
        { getItem { s with pq := (s.pq.set i (idAt s j)).set j (idAt s i) } (idAt s j)
          with index := (i : Int) }) (idAt s i) with index := (j : Int) } from rfl]
  rw [getItem_setStore_self]
  simpa [setStore] using ha

theorem swap_index_b (s : Items) (i j : Nat) (hb : idAt s j < s.store.length)
    (hne : idAt s j ≠ idAt s i) :
    (getItem (swapIt s i j) (idAt s j)).index = (i : Int) := by
  rw [show swapIt s i j = setStore
      (setStore { s with pq := (s.pq.set i (idAt s j)).set j (idAt s i) } (idAt s j)
        { getItem { s with pq := (s.pq.set i (idAt s j)).set j (idAt s i) } (idAt s j)
          with index := (i : Int) }) (idAt s i)
      { getItem (setStore { s with pq := (s.pq.set i (idAt s j)).set j (idAt s i) } (idAt s j)
        { getItem { s with pq := (s.pq.set i (idAt s j)).set j (idAt s i) } (idAt s j)
          with index := (i : Int) }) (idAt s i) with index := (j : Int) } from rfl]
  rw [getItem_setStore_ne _ _ _ _ hne, getItem_setStore_self]
  exact hb

theorem swap_getItem_other (s : Items) (i j id : Nat) (hA : id ≠ idAt s i)
    (hB : id ≠ idAt s j) : getItem (swapIt s i j) id = getItem s id := by
  rw [show swapIt s i j = setStore
      (setStore { s with pq := (s.pq.set i (idAt s j)).set j (idAt s i) } (idAt s j)
        { getItem { s with pq := (s.pq.set i (idAt s j)).set j (idAt s i) } (idAt s j)
          with index := (i : Int) }) (idAt s i)
      { getItem (setStore { s with pq := (s.pq.set i (idAt s j)).set j (idAt s i) } (idAt s j)
        { getItem { s with pq := (s.pq.set i (idAt s j)).set j (idAt s i) } (idAt s j)
          with index := (i : Int) }) (idAt s i) with index := (j : Int) } from rfl]
  rw [getItem_setStore_ne _ _ _ _ hA, getItem_setStore_ne _ _ _ _ hB]
  rfl

theorem swap_index_inv (s : Items) (i j : Nat) (hi : i < s.pq.length) (hj : j < s.pq.length)
    (hnd : s.pq.Nodup) (hval : ∀ id ∈ s.pq, id < s.store.length)
    (hidx : ∀ m, m < s.pq.length → (itemAt s m).index = (m : Int)) :
    ∀ m, m < s.pq.length → (itemAt (swapIt s i j) m).index = (m : Int) := by
  intro m hm
  have hvA : idAt s i < s.store.length := hval _ (idAt_mem hi)
  have hvB : idAt s j < s.store.length := hval _ (idAt_mem hj)
  rw [itemAt, swap_idAt s i j m hi hj]
  by_cases hmj : m = j
  · rw [if_pos hmj, hmj]
    exact swap_index_a s i j hvA
  · rw [if_neg hmj]
    by_cases hmi : m = i
    · rw [if_pos hmi, hmi]
      have hne : idAt s j ≠ idAt s i :=
        fun he => hmj (hmi.trans (idAt_inj hnd hj hi he).symm)
      exact swap_index_b s i j hvB hne
    · rw [if_neg hmi]
      have hA : idAt s m ≠ idAt s i := fun he => hmi (idAt_inj hnd hm hi he)
      have hB : idAt s m ≠ idAt s j := fun he => hmj (idAt_inj hnd hm hj he)
      rw [swap_getItem_other s i j _ hA hB]
      exact hidx m hm

theorem pqKeys_of_sameBuf {s t : Items} (h : SameBuf s t) : (pqKeys t).Perm (pqKeys s) := by
  have h1 : t.pq.map (fun id => (getItem t id).k) = t.pq.map (fun id => (getItem s id).k) :=
    List.map_congr_left (fun a _ => (h.2.2.2 a).1)
  unfold pqKeys
  rw [h1]
  exact h.2.2.1.map _

theorem swap_SWF {s : Items} (hs : SWF s) (i j : Nat) (hi : i < s.pq.length)
    (hj : j < s.pq.length) : SWF (swapIt s i j) := by
  have hperm := swap_pq_perm s i j hi hj
  have hsb := swap_sameBuf s i j hi hj
  refine ⟨hperm.symm.nodup hs.nodup, ?_, ?_, ?_, ?_, ?_⟩
  · intro id hid
    rw [swap_store_length]
    exact hs.valid id (hperm.mem_iff.1 hid)
  · exact (pqKeys_of_sameBuf hsb).symm.nodup hs.keysNodup
  · rw [swap_keyToItem]
    exact hs.mapNodup
  · intro k id
    rw [swap_keyToItem]
    rw [hs.mapKeys k id]
    constructor
    · rintro ⟨h1, h2⟩
      exact ⟨hperm.mem_iff.2 h1, ((swap_content s i j id).1).trans h2⟩
    · rintro ⟨h1, h2⟩
      exact ⟨hperm.mem_iff.1 h1, ((swap_content s i j id).1).symm.trans h2⟩
  · intro m hm
    rw [swap_pq_length] at hm
    exact swap_index_inv s i j hi hj hs.nodup hs.valid hs.index m hm

/-! ### Lemmas on the interface Push and Pop methods -/

theorem getD_last {α : Type} (d : α) (l : List α) (h : l ≠ []) :
    l.getD (l.length - 1) d = l.getLast h := by
  have hl : l.length - 1 < l.length := by
    have : 0 < l.length := List.length_pos.2 h
    omega
  rw [List.getD_eq_getElem?_getD, List.getElem?_eq_getElem hl, List.getLast_eq_getElem]
  rfl

theorem pushItem_pq (s : Items) (it : Item) :
    (pushItem s it).pq = s.pq ++ [s.store.length] := rfl

theorem pushItem_keyToItem (s : Items) (it : Item) :
    (pushItem s it).keyToItem = mapInsert s.keyToItem it.k s.store.length := rfl

theorem pushItem_store_length (s : Items) (it : Item) :
    (pushItem s it).store.length = s.store.length + 1 := by
  simp [pushItem]

theorem pushItem_getItem_old (s : Items) (it : Item) (id : Nat) (h : id < s.store.length) :
    getItem (pushItem s it) id = getItem s id := by
  show (s.store ++ [_]).getD id default = s.store.getD id default
  exact getD_append_left _ _ _ _ h

theorem pushItem_getItem_new (s : Items) (it : Item) :
    getItem (pushItem s it) s.store.length = { it with index := (s.pq.length : Int) } := by
  show (s.store ++ [_]).getD s.store.length default = _
  exact getD_append_last _ _ _

theorem pushItem_idAt_old (s : Items) (it : Item) (m : Nat) (h : m < s.pq.length) :
    idAt (pushItem s it) m = idAt s m := by
  show (s.pq ++ [_]).getD m 0 = s.pq.getD m 0
  exact getD_append_left _ _ _ _ h

theorem pushItem_idAt_new (s : Items) (it : Item) :
    idAt (pushItem s it) s.pq.length = s.store.length := by
  show (s.pq ++ [_]).getD s.pq.length 0 = _
  exact getD_append_last _ _ _

theorem pushItem_pqKeys {s : Items} (hs : SWF s) (it : Item) :
    pqKeys (pushItem s it) = pqKeys s ++ [it.k] := by
  rw [pqKeys, pushItem_pq, List.map_append]
  congr 1
  · refine List.map_congr_left (fun id hid => ?_)
    rw [pushItem_getItem_old s it id (hs.valid id hid)]
  · simp [pushItem_getItem_new]

theorem pushItem_SWF {s : Items} (hs : SWF s) (it : Item) (hk : it.k ∉ pqKeys s) :
    SWF (pushItem s it) := by
  have hnew : s.store.length ∉ s.pq := fun hmem => absurd (hs.valid _ hmem) (by omega)
  refine ⟨?_, ?_, ?_, ?_, ?_, ?_⟩
  · rw [pushItem_pq]
    simp [List.nodup_append, hs.nodup, hnew]
  · intro id hid
    rw [pushItem_pq] at hid
    rw [pushItem_store_length]
    rcases List.mem_append.1 hid with h | h
    · exact Nat.lt_succ_of_lt (hs.valid id h)
    · simp at h
      omega
  · rw [pushItem_pqKeys hs it]
    simp [List.nodup_append, hs.keysNodup, hk]
  · rw [pushItem_keyToItem]
    exact mapInsert_keys_nodup _ _ _ hs.mapNodup
  · intro k id
    rw [pushItem_keyToItem, pushItem_pq]
    by_cases hkk : k = it.k
    · subst hkk
      rw [lookup_mapInsert_self]
      constructor
      · rintro ⟨rfl⟩
        exact ⟨List.mem_append.2 (Or.inr (by simp)), by rw [pushItem_getItem_new]⟩
      · rintro ⟨hmem, hkey⟩
        rcases List.mem_append.1 hmem with h | h
        · exfalso
          apply hk
          rw [pqKeys, List.mem_map]
          exact ⟨id, h, by rw [← pushItem_getItem_old s it id (hs.valid id h)]; exact hkey⟩
        · simp at h
          rw [h]
    · rw [lookup_mapInsert_ne _ _ _ _ hkk]
      rw [hs.mapKeys k id]
      constructor
      · rintro ⟨hmem, hkey⟩
        exact ⟨List.mem_append.2 (Or.inl hmem),
          by rw [pushItem_getItem_old s it id (hs.valid id hmem)]; exact hkey⟩
      · rintro ⟨hmem, hkey⟩
        rcases List.mem_append.1 hmem with h | h
        · refine ⟨h, ?_⟩
          rw [← pushItem_getItem_old s it id (hs.valid id h)]
          exact hkey
        · exfalso
          simp at h
          subst h
          rw [pushItem_getItem_new] at hkey
          exact hkk hkey.symm
  · intro m hm
    rw [pushItem_pq, List.length_append, List.length_singleton] at hm
    by_cases hlt : m < s.pq.length
    · rw [itemAt, pushItem_idAt_old s it m hlt,
        pushItem_getItem_old s it _ (hs.valid _ (idAt_mem hlt))]
      exact hs.index m hlt
    · have hme : m = s.pq.length := by omega
      subst hme
      rw [itemAt, pushItem_idAt_new, pushItem_getItem_new]

theorem popItem_id (s : Items) : (popItem s).2 = idAt s (s.pq.length - 1) := rfl

theorem popItem_pq (s : Items) : (popItem s).1.pq = s.pq.dropLast := rfl

theorem popItem_keyToItem (s : Items) :
    (popItem s).1.keyToItem
      = mapErase s.keyToItem (getItem s (idAt s (s.pq.length - 1))).k := rfl

theorem popItem_store_length (s : Items) : (popItem s).1.store.length = s.store.length := by
  simp [popItem, setStore]

theorem popItem_getItem_ne (s : Items) (id : Nat) (h : id ≠ idAt s (s.pq.length - 1)) :
    getItem (popItem s).1 id = getItem s id :=
  getItem_setStore_ne s _ _ id h

theorem popItem_content (s : Items) (id : Nat) :
    (getItem (popItem s).1 id).k = (getItem s id).k ∧
    (getItem (popItem s).1 id).v = (getItem s id).v ∧
    (getItem (popItem s).1 id).expire = (getItem s id).expire :=
  getItem_setStore_index s _ _ id

theorem mem_dropLast_ne_last {l : List Nat} (hnd : l.Nodup) (hne : l ≠ []) {id : Nat}
    (hid : id ∈ l.dropLast) : id ≠ l.getLast hne := by
  intro he
  have hsplit : l.dropLast ++ [l.getLast hne] = l := List.dropLast_append_getLast hne
  have hnd2 : (l.dropLast ++ [l.getLast hne]).Nodup := by rw [hsplit]; exact hnd
  rw [List.nodup_append] at hnd2
  exact hnd2.2.2 hid (by simp [he])

theorem popItem_SWF {s : Items} (hs : SWF s) (hne : s.pq ≠ []) : SWF (popItem s).1 := by
  have hlast : idAt s (s.pq.length - 1) = s.pq.getLast hne := getD_last 0 s.pq hne
  have hmemlast : idAt s (s.pq.length - 1) ∈ s.pq := by
    rw [hlast]
    exact List.getLast_mem hne
  have hdl : ∀ id ∈ s.pq.dropLast, id ≠ idAt s (s.pq.length - 1) := by
    intro id hid
    rw [hlast]
    exact mem_dropLast_ne_last hs.nodup hne hid
  refine ⟨?_, ?_, ?_, ?_, ?_, ?_⟩
  · rw [popItem_pq]
    exact (List.dropLast_sublist s.pq).nodup hs.nodup
  · intro id hid
    rw [popItem_pq] at hid
    rw [popItem_store_length]
    exact hs.valid id ((List.dropLast_sublist s.pq).mem hid)
  · have hsub : (pqKeys (popItem s).1).Sublist (pqKeys s) := by
      rw [pqKeys, pqKeys, popItem_pq]
      have he : s.pq.dropLast.map (fun id => (getItem (popItem s).1 id).k)
          = s.pq.dropLast.map (fun id => (getItem s id).k) :=
        List.map_congr_left (fun id hid => (popItem_content s id).1)
      rw [he]
      exact (List.dropLast_sublist s.pq).map _
    exact hsub.nodup hs.keysNodup
  · rw [popItem_keyToItem]
    exact mapErase_keys_nodup _ _ hs.mapNodup
  · intro k id
    rw [popItem_keyToItem, popItem_pq]
    by_cases hkk : k = (getItem s (idAt s (s.pq.length - 1))).k
    · rw [hkk, lookup_mapErase_self]
      constructor
      · rintro ⟨⟩
      · rintro ⟨hmem, hkey⟩
        exfalso
        have hmem2 : id ∈ s.pq := (List.dropLast_sublist s.pq).mem hmem
        have hne2 : id ≠ idAt s (s.pq.length - 1) := hdl id hmem
        rw [popItem_getItem_ne s id hne2] at hkey
        have hknd : (s.pq.map (fun id => (getItem s id).k)).Nodup := hs.keysNodup
        have hinj := List.inj_on_of_nodup_map hknd
        exact hne2 (hinj hmem2 hmemlast hkey)
    · rw [lookup_mapErase_ne _ _ _ hkk, hs.mapKeys k id]
      constructor
      · rintro ⟨hmem, hkey⟩
        have hne2 : id ≠ idAt s (s.pq.length - 1) := by
          intro he
          exact hkk (by rw [← he]; exact hkey.symm)
        refine ⟨?_, by rw [popItem_getItem_ne s id hne2]; exact hkey⟩
        have hsplit : s.pq.dropLast ++ [s.pq.getLast hne] = s.pq :=
          List.dropLast_append_getLast hne
        rw [← hsplit] at hmem
        rcases List.mem_append.1 hmem with h | h
        · exact h
        · exfalso
          simp at h
          exact hne2 (by rw [h, hlast])
      · rintro ⟨hmem, hkey⟩
        have hne2 : id ≠ idAt s (s.pq.length - 1) := hdl id hmem
        rw [popItem_getItem_ne s id hne2] at hkey
        exact ⟨(List.dropLast_sublist s.pq).mem hmem, hkey⟩
  · intro m hm
    rw [popItem_pq, List.length_dropLast] at hm
    have hm1 : m + 1 < s.pq.length := by omega
    have hIdA : idAt (popItem s).1 m = idAt s m := by
      show s.pq.dropLast.getD m 0 = s.pq.getD m 0
      exact getD_dropLast _ _ _ hm1
    have hmem : idAt s m ∈ s.pq.dropLast := by
      have : idAt (popItem s).1 m ∈ (popItem s).1.pq := idAt_mem (by
        rw [popItem_pq, List.length_dropLast]
        omega)
      rw [hIdA, popItem_pq] at this
      exact this
    rw [itemAt, hIdA, popItem_getItem_ne s _ (hdl _ hmem)]
    exact hs.index m (by omega)

/-! ### Structural preservation through the sift loops -/

theorem upF_pres (now : Int) (fuel : Nat) :
    ∀ (s : Items) (j : Nat), j < fuel → j < s.pq.length → SWF s →
      SWF (upF now fuel s j) ∧ SameBuf s (upF now fuel s j) ∧
      ∀ m, j < m → idAt (upF now fuel s j) m = idAt s m := by
  induction fuel with
  | zero => intro s j hj; omega
  | succ fuel ih =>
    intro s j hj hjlen hs
    rw [upF]
    by_cases hij : (j - 1) / 2 = j
    · rw [if_pos hij]
      exact ⟨hs, sameBuf_refl s, fun m _ => rfl⟩
    · rw [if_neg hij]
      by_cases hless : lessB s now j ((j - 1) / 2)
      · rw [if_pos hless]
        have hjpos : 0 < j := by
          rcases Nat.eq_zero_or_pos j with h0 | h0
          · exact absurd (by rw [h0]) hij
          · exact h0
        have hilt : (j - 1) / 2 < j := by omega
        have hifuel : (j - 1) / 2 < fuel := by omega
        have hilen : (j - 1) / 2 < s.pq.length := by omega
        have hswf2 : SWF (swapIt s ((j - 1) / 2) j) := swap_SWF hs _ _ hilen hjlen
        have hlen2 : (swapIt s ((j - 1) / 2) j).pq.length = s.pq.length :=
          swap_pq_length s _ _
        obtain ⟨h1, h2, h3⟩ := ih (swapIt s ((j - 1) / 2) j) ((j - 1) / 2) hifuel
          (by rw [hlen2]; exact hilen) hswf2
        refine ⟨h1, sameBuf_trans (swap_sameBuf s _ _ hilen hjlen) h2, ?_⟩
        intro m hm
        rw [h3 m (by omega), swap_idAt s _ _ m hilen hjlen,
          if_neg (by omega : ¬ m = j), if_neg (by omega : ¬ m = (j - 1) / 2)]
      · rw [if_neg hless]
        exact ⟨hs, sameBuf_refl s, fun m _ => rfl⟩

theorem downF_pres (now : Int) (fuel : Nat) :
    ∀ (s : Items) (i n : Nat), n ≤ s.pq.length → SWF s →
      SWF (downF now fuel s i n).1 ∧ SameBuf s (downF now fuel s i n).1 ∧
      i ≤ (downF now fuel s i n).2 ∧
      ∀ m, (m < i ∨ n ≤ m) → idAt (downF now fuel s i n).1 m = idAt s m := by
  induction fuel with
  | zero => exact fun s i n _ hs => ⟨hs, sameBuf_refl s, Nat.le_refl i, fun m _ => rfl⟩
  | succ fuel ih =>
    intro s i n hn hs
    rw [downF]
    by_cases hge : 2 * i + 1 ≥ n
    · rw [if_pos hge]
      exact ⟨hs, sameBuf_refl s, Nat.le_refl i, fun m _ => rfl⟩
    · rw [if_neg hge]
      have hcc : i < chooseChild now s i n ∧ chooseChild now s i n < n := by
        rw [chooseChild]
        by_cases hc : 2 * i + 2 < n ∧ lessB s now (2 * i + 2) (2 * i + 1) = true
        · rw [if_pos hc]
          omega
        · rw [if_neg hc]
          omega
      by_cases hless : lessB s now (chooseChild now s i n) i
      · rw [if_pos hless]
        have hilen : i < s.pq.length := by omega
        have hjlen : chooseChild now s i n < s.pq.length := by omega
        have hswf2 : SWF (swapIt s i (chooseChild now s i n)) := swap_SWF hs _ _ hilen hjlen
        have hlen2 : (swapIt s i (chooseChild now s i n)).pq.length = s.pq.length :=
          swap_pq_length s _ _
        obtain ⟨h1, h2, h3, h4⟩ := ih (swapIt s i (chooseChild now s i n))
          (chooseChild now s i n) n (by omega) hswf2
        refine ⟨h1, sameBuf_trans (swap_sameBuf s _ _ hilen hjlen) h2, by omega, ?_⟩
        intro m hm
        rw [h4 m (by omega), swap_idAt s _ _ m hilen hjlen,
          if_neg (by omega : ¬ m = chooseChild now s i n), if_neg (by omega : ¬ m = i)]
      · rw [if_neg hless]
        exact ⟨hs, sameBuf_refl s, Nat.le_refl i, fun m _ => rfl⟩

theorem heapUp_pres {s : Items} (now : Int) (j : Nat) (hjlen : j < s.pq.length) (hs : SWF s) :
    SWF (heapUp now s j) ∧ SameBuf s (heapUp now s j) ∧
      ∀ m, j < m → idAt (heapUp now s j) m = idAt s m :=
  upF_pres now (j + 1) s j (Nat.lt_succ_self j) hjlen hs

theorem heapDown_pres {s : Items} (now : Int) (i n : Nat) (hn : n ≤ s.pq.length) (hs : SWF s) :
    SWF (heapDown now s i n).1 ∧ SameBuf s (heapDown now s i n).1 ∧
      ∀ m, (m < i ∨ n ≤ m) → idAt (heapDown now s i n).1 m = idAt s m := by
  obtain ⟨h1, h2, _, h4⟩ := downF_pres now n s i n hn hs
  exact ⟨h1, h2, h4⟩

/-! ### Structural facts for the four heap package operations -/

theorem lookup_none_iff {s : Items} (hs : SWF s) (k : Nat) :
    List.lookup k s.keyToItem = none ↔ k ∉ pqKeys s := by
  constructor
  · intro h hk
    rcases List.mem_map.1 hk with ⟨id, hid, hkey⟩
    have h2 := (hs.mapKeys k id).2 ⟨hid, hkey⟩
    rw [h] at h2
    cases h2
  · intro h
    cases hl : List.lookup k s.keyToItem with
    | none => rfl
    | some id =>
      obtain ⟨h1, h2⟩ := (hs.mapKeys k id).1 hl
      exact absurd (List.mem_map.2 ⟨id, h1, h2⟩) h

theorem pq_ne_nil_of_pos {s : Items} (h : 0 < s.pq.length) : s.pq ≠ [] := by
  intro hh
  rw [hh] at h
  simp at h

theorem heapPop_pres {s : Items} (now : Int) (hs : SWF s) (hpos : 0 < s.pq.length) :
    SWF (heapPop now s).1 ∧
    (heapPop now s).2 = idAt s 0 ∧
    (heapPop now s).1.pq.length = s.pq.length - 1 ∧
    (∀ id, (getItem (heapPop now s).1 id).k = (getItem s id).k ∧
      (getItem (heapPop now s).1 id).v = (getItem s id).v ∧
      (getItem (heapPop now s).1 id).expire = (getItem s id).expire) ∧
    List.lookup (keyAt s 0) (heapPop now s).1.keyToItem = none ∧
    (∀ k2, k2 ≠ keyAt s 0 →
      List.lookup k2 (heapPop now s).1.keyToItem = List.lookup k2 s.keyToItem) ∧
    (pqKeys (heapPop now s).1 ++ [keyAt s 0]).Perm (pqKeys s) := by
  have hn : s.pq.length - 1 < s.pq.length := by omega
  have hs1 : SWF (swapIt s 0 (s.pq.length - 1)) := swap_SWF hs _ _ hpos hn
  have hlen1 : (swapIt s 0 (s.pq.length - 1)).pq.length = s.pq.length := swap_pq_length s _ _
  obtain ⟨hs2, hsb2, huntouched⟩ := heapDown_pres now 0 (s.pq.length - 1)
    (by rw [hlen1]; omega) hs1
  set s1 := swapIt s 0 (s.pq.length - 1) with hs1def
  set s2 := (heapDown now s1 0 (s.pq.length - 1)).1 with hs2def
  have hsb : SameBuf s s2 := sameBuf_trans (swap_sameBuf s 0 (s.pq.length - 1) hpos hn) hsb2
  have hlen2 : s2.pq.length = s.pq.length := sameBuf_pq_length hsb
  have hpop : heapPop now s = popItem s2 := rfl
  have hid2 : idAt s2 (s.pq.length - 1) = idAt s 0 := by
    rw [huntouched (s.pq.length - 1) (Or.inr (Nat.le_refl _)),
      swap_idAt s 0 (s.pq.length - 1) (s.pq.length - 1) hpos hn, if_pos rfl]
  have hpopid : (popItem s2).2 = idAt s 0 := by
    rw [popItem_id, hlen2, hid2]
  have hcontent : ∀ id, (getItem (popItem s2).1 id).k = (getItem s id).k ∧
      (getItem (popItem s2).1 id).v = (getItem s id).v ∧
      (getItem (popItem s2).1 id).expire = (getItem s id).expire := by
    intro id
    obtain ⟨c1, c2, c3⟩ := popItem_content s2 id
    obtain ⟨d1, d2, d3⟩ := hsb.2.2.2 id
    exact ⟨c1.trans d1, c2.trans d2, c3.trans d3⟩
  have hmap2 : s2.keyToItem = s.keyToItem := hsb.1
  have hkey2 : (getItem s2 (idAt s2 (s2.pq.length - 1))).k = keyAt s 0 := by
    rw [hlen2, hid2, (hsb.2.2.2 (idAt s 0)).1]
    rfl
  have hmapPop : (popItem s2).1.keyToItem = mapErase s.keyToItem (keyAt s 0) := by
    rw [popItem_keyToItem, hkey2, hmap2]
  refine ⟨?_, ?_, ?_, ?_, ?_, ?_, ?_⟩
  · rw [hpop]
    exact popItem_SWF hs2 (pq_ne_nil_of_pos (by omega))
  · rw [hpop]
    exact hpopid
  · rw [hpop, popItem_pq, List.length_dropLast, hlen2]
  · rw [hpop]
    exact hcontent
  · rw [hpop, hmapPop]
    exact lookup_mapErase_self _ _
  · intro k2 hk2
    rw [hpop, hmapPop]
    exact lookup_mapErase_ne _ _ _ hk2
  · rw [hpop]
    have hne2 : s2.pq ≠ [] := pq_ne_nil_of_pos (by omega)
    have hsplit : s2.pq.dropLast ++ [s2.pq.getLast hne2] = s2.pq :=
      List.dropLast_append_getLast hne2
    have hgl : s2.pq.getLast hne2 = idAt s 0 := by
      rw [← getD_last 0 s2.pq hne2, hlen2]
      exact hid2
    have hmapeq : pqKeys (popItem s2).1 = s2.pq.dropLast.map (fun id => (getItem s id).k) := by
      rw [pqKeys, popItem_pq]
      exact List.map_congr_left (fun id _ => (hcontent id).1)
    rw [hmapeq]
    have hstep : s2.pq.dropLast.map (fun id => (getItem s id).k) ++ [keyAt s 0]
        = s2.pq.map (fun id => (getItem s id).k) := by
      rw [← hsplit, List.map_append]
      simp [hgl]
      rfl
    rw [hstep]
    have hpq2 : s2.pq.Perm s.pq := hsb.2.2.1
    exact hpq2.map _

theorem heapPush_pres {s : Items} (now : Int) (it : Item) (hs : SWF s)
    (hk : it.k ∉ pqKeys s) :
    SWF (heapPush now s it) ∧
    (heapPush now s it).pq.length = s.pq.length + 1 ∧
    (∃ id, List.lookup it.k (heapPush now s it).keyToItem = some id ∧
      (getItem (heapPush now s it) id).k = it.k ∧
      (getItem (heapPush now s it) id).v = it.v ∧
      (getItem (heapPush now s it) id).expire = it.expire) ∧
    (∀ k2, k2 ≠ it.k →
      List.lookup k2 (heapPush now s it).keyToItem = List.lookup k2 s.keyToItem) ∧
    (pqKeys (heapPush now s it)).Perm (pqKeys s ++ [it.k]) := by
  have hp : SWF (pushItem s it) := pushItem_SWF hs it hk
  have hlenp : (pushItem s it).pq.length = s.pq.length + 1 := by
    rw [pushItem_pq]
    simp
  obtain ⟨hu1, hu2, _⟩ := heapUp_pres now ((pushItem s it).pq.length - 1)
    (by omega) hp
  have hpush : heapPush now s it = heapUp now (pushItem s it) ((pushItem s it).pq.length - 1) :=
    rfl
  have hlenu : (heapPush now s it).pq.length = s.pq.length + 1 := by
    rw [hpush, sameBuf_pq_length hu2, hlenp]
  have hmapu : (heapPush now s it).keyToItem = (pushItem s it).keyToItem := by
    rw [hpush]
    exact hu2.1
  refine ⟨hpush ▸ hu1, hlenu, ?_, ?_, ?_⟩
  · refine ⟨s.store.length, ?_, ?_, ?_, ?_⟩
    · rw [hmapu, pushItem_keyToItem]
      exact lookup_mapInsert_self _ _ _
    · rw [hpush, (hu2.2.2.2 s.store.length).1, pushItem_getItem_new]
    · rw [hpush, (hu2.2.2.2 s.store.length).2.1, pushItem_getItem_new]
    · rw [hpush, (hu2.2.2.2 s.store.length).2.2, pushItem_getItem_new]
  · intro k2 hk2
    rw [hmapu, pushItem_keyToItem]
    exact lookup_mapInsert_ne _ _ _ _ hk2
  · have h1 : (pqKeys (heapPush now s it)).Perm (pqKeys (pushItem s it)) := by
      rw [hpush]
      exact pqKeys_of_sameBuf hu2
    rw [pushItem_pqKeys hs it] at h1
    exact h1

theorem heapFix_pres {s : Items} (now : Int) (i : Nat) (hi : i < s.pq.length) (hs : SWF s) :
    SWF (heapFix now s i) ∧ SameBuf s (heapFix now s i) := by
  obtain ⟨hd1, hd2, _⟩ := heapDown_pres now i s.pq.length (Nat.le_refl _) hs
  rw [heapFix]
  by_cases hmv : (heapDown now s i s.pq.length).2
  · rw [if_pos hmv]
    exact ⟨hd1, hd2⟩
  · rw [if_neg hmv]
    obtain ⟨hu1, hu2, _⟩ := heapUp_pres now i (by rw [sameBuf_pq_length hd2]; exact hi) hd1
    exact ⟨hu1, sameBuf_trans hd2 hu2⟩

theorem heapRemove_pres {s : Items} (now : Int) (i : Nat) (hi : i < s.pq.length) (hs : SWF s) :
    SWF (heapRemove now s i).1 ∧
    (heapRemove now s i).2 = idAt s i ∧
    (heapRemove now s i).1.pq.length = s.pq.length - 1 ∧
    (∀ id, (getItem (heapRemove now s i).1 id).k = (getItem s id).k ∧
      (getItem (heapRemove now s i).1 id).v = (getItem s id).v ∧
      (getItem (heapRemove now s i).1 id).expire = (getItem s id).expire) ∧
    List.lookup (keyAt s i) (heapRemove now s i).1.keyToItem = none ∧
    (∀ k2, k2 ≠ keyAt s i →
      List.lookup k2 (heapRemove now s i).1.keyToItem = List.lookup k2 s.keyToItem) ∧
    (pqKeys (heapRemove now s i).1 ++ [keyAt s i]).Perm (pqKeys s) := by
  have hpos : 0 < s.pq.length := by omega
  by_cases hin : i = s.pq.length - 1
  · have hrm : heapRemove now s i = popItem s := by
      rw [heapRemove, if_pos hin]
    have hne : s.pq ≠ [] := pq_ne_nil_of_pos hpos
    have hid : idAt s (s.pq.length - 1) = idAt s i := by rw [hin]
    refine ⟨?_, ?_, ?_, ?_, ?_, ?_, ?_⟩
    · rw [hrm]
      exact popItem_SWF hs hne
    · rw [hrm, popItem_id, hid]
    · rw [hrm, popItem_pq, List.length_dropLast]
    · intro id
      rw [hrm]
      exact popItem_content s id
    · rw [hrm, popItem_keyToItem, hid]
      exact lookup_mapErase_self _ _
    · intro k2 hk2
      rw [hrm, popItem_keyToItem, hid]
      exact lookup_mapErase_ne _ _ _ hk2
    · rw [hrm]
      have hsplit : s.pq.dropLast ++ [s.pq.getLast hne] = s.pq :=
        List.dropLast_append_getLast hne
      have hgl : s.pq.getLast hne = idAt s i := by
        rw [← getD_last 0 s.pq hne]
        exact hid
      have hmapeq : pqKeys (popItem s).1 = s.pq.dropLast.map (fun id => (getItem s id).k) := by
        rw [pqKeys, popItem_pq]
        exact List.map_congr_left (fun id _ => (popItem_content s id).1)
      rw [hmapeq]
      have hstep : s.pq.dropLast.map (fun id => (getItem s id).k) ++ [keyAt s i]
          = s.pq.map (fun id => (getItem s id).k) := by
        rw [← hsplit, List.map_append]
        simp [hgl]
        rfl
      rw [hstep]
      exact List.Perm.refl _
  · have hi2 : i < s.pq.length - 1 := by omega
    have hn : s.pq.length - 1 < s.pq.length := by omega
    have hs1 : SWF (swapIt s i (s.pq.length - 1)) := swap_SWF hs _ _ hi hn
    have hlen1 : (swapIt s i (s.pq.length - 1)).pq.length = s.pq.length := swap_pq_length s _ _
    obtain ⟨hd1, hd2, hdtouch⟩ := heapDown_pres now i (s.pq.length - 1)
      (by rw [hlen1]; omega) hs1
    set s1 := swapIt s i (s.pq.length - 1) with hs1def
    set s2 := (heapDown now s1 i (s.pq.length - 1)).1 with hs2def
    have hrm : heapRemove now s i
        = popItem (if (heapDown now s1 i (s.pq.length - 1)).2 then s2
            else heapUp now s2 i) := by
      rw [heapRemove, if_neg hin]
    have hsb1 : SameBuf s s1 := swap_sameBuf s i (s.pq.length - 1) hi hn
    have hs3 : SWF (if (heapDown now s1 i (s.pq.length - 1)).2 then s2
        else heapUp now s2 i) := by
      by_cases hmv : (heapDown now s1 i (s.pq.length - 1)).2
      · rw [if_pos hmv]
        exact hd1
      · rw [if_neg hmv]
        exact (heapUp_pres now i (by
          rw [sameBuf_pq_length (sameBuf_trans hsb1 hd2)]; omega) hd1).1
    have hsb3 : SameBuf s (if (heapDown now s1 i (s.pq.length - 1)).2 then s2
        else heapUp now s2 i) := by
      by_cases hmv : (heapDown now s1 i (s.pq.length - 1)).2
      · rw [if_pos hmv]
        exact sameBuf_trans hsb1 hd2
      · rw [if_neg hmv]
        refine sameBuf_trans (sameBuf_trans hsb1 hd2) ?_
        exact (heapUp_pres now i (by
          rw [sameBuf_pq_length (sameBuf_trans hsb1 hd2)]; omega) hd1).2.1
    have htouch3 : idAt (if (heapDown now s1 i (s.pq.length - 1)).2 then s2
        else heapUp now s2 i) (s.pq.length - 1) = idAt s i := by
      have hbase : idAt s1 (s.pq.length - 1) = idAt s i := by
        rw [hs1def, swap_idAt s i (s.pq.length - 1) (s.pq.length - 1) hi hn, if_pos rfl]
      have h2 : idAt s2 (s.pq.length - 1) = idAt s i := by
        rw [hdtouch (s.pq.length - 1) (Or.inr (Nat.le_refl _)), hbase]
      by_cases hmv : (heapDown now s1 i (s.pq.length - 1)).2
      · rw [if_pos hmv]
        exact h2
      · rw [if_neg hmv]
        obtain ⟨_, _, hutouch⟩ := heapUp_pres now i (by
          rw [sameBuf_pq_length (sameBuf_trans hsb1 hd2)]; omega) hd1
        rw [hutouch (s.pq.length - 1) (by omega), h2]
    set s3 := (if (heapDown now s1 i (s.pq.length - 1)).2 then s2
        else heapUp now s2 i) with hs3def
    have hlen3 : s3.pq.length = s.pq.length := sameBuf_pq_length hsb3
    have hne3 : s3.pq ≠ [] := pq_ne_nil_of_pos (by omega)
    have hpopid : (popItem s3).2 = idAt s i := by
      rw [popItem_id, hlen3]
      exact htouch3
    have hcontent : ∀ id, (getItem (popItem s3).1 id).k = (getItem s id).k ∧
        (getItem (popItem s3).1 id).v = (getItem s id).v ∧
        (getItem (popItem s3).1 id).expire = (getItem s id).expire := by
      intro id
      obtain ⟨c1, c2, c3⟩ := popItem_content s3 id
      obtain ⟨d1, d2, d3⟩ := hsb3.2.2.2 id
      exact ⟨c1.trans d1, c2.trans d2, c3.trans d3⟩
    have hkey3 : (getItem s3 (idAt s3 (s3.pq.length - 1))).k = keyAt s i := by
      rw [hlen3, htouch3, (hsb3.2.2.2 (idAt s i)).1]
      rfl
    have hmapPop : (popItem s3).1.keyToItem = mapErase s.keyToItem (keyAt s i) := by
      rw [popItem_keyToItem, hkey3, hsb3.1]
    refine ⟨?_, ?_, ?_, ?_, ?_, ?_, ?_⟩
    · rw [hrm]
      exact popItem_SWF hs3 hne3
    · rw [hrm]
      exact hpopid
    · rw [hrm, popItem_pq, List.length_dropLast, hlen3]
    · intro id
      rw [hrm]
      exact hcontent id
    · rw [hrm, hmapPop]
      exact lookup_mapErase_self _ _
    · intro k2 hk2
      rw [hrm, hmapPop]
      exact lookup_mapErase_ne _ _ _ hk2
    · rw [hrm]
      have hsplit : s3.pq.dropLast ++ [s3.pq.getLast hne3] = s3.pq :=
        List.dropLast_append_getLast hne3
      have hgl : s3.pq.getLast hne3 = idAt s i := by
        rw [← getD_last 0 s3.pq hne3, hlen3]
        exact htouch3
      have hmapeq : pqKeys (popItem s3).1
          = s3.pq.dropLast.map (fun id => (getItem s id).k) := by
        rw [pqKeys, popItem_pq]
        exact List.map_congr_left (fun id _ => (hcontent id).1)
      rw [hmapeq]
      have hstep : s3.pq.dropLast.map (fun id => (getItem s id).k) ++ [keyAt s i]
          = s3.pq.map (fun id => (getItem s id).k) := by
        rw [← hsplit, List.map_append]
        simp [hgl]
        rfl
      rw [hstep]
      exact hsb3.2.2.1.map _

/-! ### The lazy-expiration le relation -/

theorem leE_of_lessB {s : Items} {now : Int} {i j : Nat} (h : lessB s now i j = true) :
    leE now (expAt s i) (expAt s j) := by
  rw [lessB, Bool.or_eq_true, decide_eq_true_iff, decide_eq_true_iff] at h
  rcases h with h | h
  · exact Or.inl h
  · exact Or.inr (le_of_lt h)

theorem leE_of_not_lessB {s : Items} {now : Int} {i j : Nat} (h : lessB s now j i = false) :
    leE now (expAt s i) (expAt s j) := by
  rw [lessB, Bool.or_eq_false_iff, decide_eq_false_iff_not, decide_eq_false_iff_not] at h
  exact Or.inr (le_of_not_lt h.2)

theorem leE_trans {now x y z : Int} (h1 : leE now x y) (h2 : leE now y z) : leE now x z := by
  rcases h1 with h1 | h1
  · exact Or.inl h1
  · rcases h2 with h2 | h2
    · exact Or.inl (lt_of_le_of_lt h1 h2)
    · exact Or.inr (le_trans h1 h2)

theorem leE_refl (now x : Int) : leE now x x := Or.inr (le_refl x)

theorem leE_mono {t t2 x y : Int} (h : leE t x y) (hle : t ≤ t2) : leE t2 x y := by
  rcases h with h | h
  · exact Or.inl (lt_of_lt_of_le h hle)
  · exact Or.inr h

theorem HOrd_mono {s : Items} {t t2 : Int} {n : Nat} (h : HOrd s t n) (hle : t ≤ t2) :
    HOrd s t2 n := fun c hc0 hcn => leE_mono (h c hc0 hcn) hle

theorem HOrd_root_min {s : Items} {now : Int} {n : Nat} (h : HOrd s now n) :
    ∀ m, m < n → leE now (expAt s 0) (expAt s m) := by
  intro m
  induction m using Nat.strong_induction_on with
  | _ m ih =>
    intro hm
    rcases Nat.eq_zero_or_pos m with h0 | h0
    · rw [h0]
      exact leE_refl now _
    · have hp : (m - 1) / 2 < m := by omega
      exact leE_trans (ih _ hp (by omega)) (h m h0 hm)

/-! ### Sift-up restores the heap order -/

theorem upF_hord (now : Int) (fuel : Nat) :
    ∀ (s : Items) (j n : Nat), j < fuel → j < n → n ≤ s.pq.length → SWF s →
      (∀ c, 0 < c → c < n → c ≠ j → leE now (expAt s ((c - 1) / 2)) (expAt s c)) →
      (∀ c, c < n → 0 < c → (c - 1) / 2 = j →
        leE now (expAt s ((j - 1) / 2)) (expAt s c)) →
      HOrd (upF now fuel s j) now n := by
  induction fuel with
  | zero => intro s j n hj; omega
  | succ fuel ih =>
    intro s j n hjf hjn hn hs ha hb
    rw [upF]
    by_cases hij : (j - 1) / 2 = j
    · rw [if_pos hij]
      have hj0 : j = 0 := by omega
      intro c hc0 hcn
      exact ha c hc0 hcn (by omega)
    · rw [if_neg hij]
      have hj0 : 0 < j := by omega
      have hilt : (j - 1) / 2 < j := by omega
      have hjlen : j < s.pq.length := by omega
      have hilen : (j - 1) / 2 < s.pq.length := by omega
      by_cases hless : lessB s now j ((j - 1) / 2)
      · rw [if_pos hless]
        have hLE : leE now (expAt s j) (expAt s ((j - 1) / 2)) := leE_of_lessB hless
        have hEi : expAt (swapIt s ((j - 1) / 2) j) ((j - 1) / 2) = expAt s j := by
          rw [swap_expAt s _ j _ hilen hjlen, if_neg (by omega), if_pos rfl]
        have hEj : expAt (swapIt s ((j - 1) / 2) j) j = expAt s ((j - 1) / 2) := by
          rw [swap_expAt s _ j _ hilen hjlen, if_pos rfl]
        have hEo : ∀ m, m ≠ (j - 1) / 2 → m ≠ j →
            expAt (swapIt s ((j - 1) / 2) j) m = expAt s m := by
          intro m h1 h2
          rw [swap_expAt s _ j _ hilen hjlen, if_neg h2, if_neg h1]
        refine ih (swapIt s ((j - 1) / 2) j) ((j - 1) / 2) n (by omega) (by omega)
          (by rw [swap_pq_length]; exact hn) (swap_SWF hs _ _ hilen hjlen) ?_ ?_
        · intro c hc0 hcn hci
          by_cases hcj : c = j
          · rw [hcj, hEi, hEj]
            exact hLE
          · by_cases hpcj : (c - 1) / 2 = j
            · rw [hpcj, hEj, hEo c hci hcj]
              exact hb c hcn hc0 hpcj
            · by_cases hpci : (c - 1) / 2 = (j - 1) / 2
              · rw [hpci, hEi, hEo c hci hcj]
                have h2 := ha c hc0 hcn hcj
                rw [hpci] at h2
                exact leE_trans hLE h2
              · rw [hEo _ hpci hpcj, hEo c hci hcj]
                exact ha c hc0 hcn hcj
        · intro c hcn hc0 hpc
          have hcnei : c ≠ (j - 1) / 2 := by omega
          by_cases hi0 : (j - 1) / 2 = 0
          · rw [show ((j - 1) / 2 - 1) / 2 = (j - 1) / 2 by omega, hEi]
            by_cases hcj : c = j
            · rw [hcj, hEj]
              exact hLE
            · rw [hEo c hcnei hcj]
              refine leE_trans hLE ?_
              have h2 := ha c hc0 hcn hcj
              rw [hpc] at h2
              exact h2
          · have hgne : ((j - 1) / 2 - 1) / 2 ≠ (j - 1) / 2 := by omega
            have hgnej : ((j - 1) / 2 - 1) / 2 ≠ j := by omega
            rw [hEo _ hgne hgnej]
            by_cases hcj : c = j
            · rw [hcj, hEj]
              exact ha ((j - 1) / 2) (by omega) (by omega) (by omega)
            · rw [hEo c hcnei hcj]
              refine leE_trans (ha ((j - 1) / 2) (by omega) (by omega) (by omega)) ?_
              have h2 := ha c hc0 hcn hcj
              rw [hpc] at h2
              exact h2
      · rw [if_neg hless]
        intro c hc0 hcn
        by_cases hcj : c = j
        · subst hcj
          exact leE_of_not_lessB (Bool.not_eq_true _ ▸ hless)
        · exact ha c hc0 hcn hcj

/-! ### Sift-down restores the heap order -/

theorem chooseChild_range (now : Int) (s : Items) (i n : Nat) (h : 2 * i + 1 < n) :
    (chooseChild now s i n = 2 * i + 1 ∨ chooseChild now s i n = 2 * i + 2) ∧
    chooseChild now s i n < n ∧ i < chooseChild now s i n ∧
    (chooseChild now s i n - 1) / 2 = i := by
  by_cases hc : 2 * i + 2 < n ∧ lessB s now (2 * i + 2) (2 * i + 1) = true
  · have he : chooseChild now s i n = 2 * i + 2 := by rw [chooseChild, if_pos hc]
    obtain ⟨hc1, _⟩ := hc
    rw [he]
    exact ⟨Or.inr rfl, by omega, by omega, by omega⟩
  · have he : chooseChild now s i n = 2 * i + 1 := by rw [chooseChild, if_neg hc]
    rw [he]
    exact ⟨Or.inl rfl, by omega, by omega, by omega⟩

theorem chooseChild_min (now : Int) (s : Items) (i n : Nat) (h : 2 * i + 1 < n) :
    ∀ c, 0 < c → c < n → (c - 1) / 2 = i → c ≠ chooseChild now s i n →
      leE now (expAt s (chooseChild now s i n)) (expAt s c) := by
  intro c hc0 hcn hpc hne
  have hcor : c = 2 * i + 1 ∨ c = 2 * i + 2 := by omega
  by_cases hc : 2 * i + 2 < n ∧ lessB s now (2 * i + 2) (2 * i + 1) = true
  · have he : chooseChild now s i n = 2 * i + 2 := by rw [chooseChild, if_pos hc]
    rw [he] at hne ⊢
    have hceq : c = 2 * i + 1 := by
      rcases hcor with h1 | h1
      · exact h1
      · exact absurd h1 hne
    rw [hceq]
    exact leE_of_lessB hc.2
  · have he : chooseChild now s i n = 2 * i + 1 := by rw [chooseChild, if_neg hc]
    rw [he] at hne ⊢
    have hceq : c = 2 * i + 2 := by
      rcases hcor with h1 | h1
      · exact absurd h1 hne
      · exact h1
    have h2n : 2 * i + 2 < n := by omega
    have hfalse : lessB s now (2 * i + 2) (2 * i + 1) = false := by
      cases hbb : lessB s now (2 * i + 2) (2 * i + 1) with
      | false => rfl
      | true => exact absurd ⟨h2n, hbb⟩ hc
    rw [hceq]
    exact leE_of_not_lessB hfalse

theorem downF_hord (now : Int) (fuel : Nat) :
    ∀ (s : Items) (i n : Nat), n ≤ fuel + i → n ≤ s.pq.length → SWF s →
      (∀ c, 0 < c → c < n → (c - 1) / 2 ≠ i → c ≠ i →
        leE now (expAt s ((c - 1) / 2)) (expAt s c)) →
      (0 < i → ∀ c, c < n → (c - 1) / 2 = i →
        leE now (expAt s ((i - 1) / 2)) (expAt s c)) →
      ((downF now fuel s i n).2 = i → (downF now fuel s i n).1 = s) ∧
      (∀ c, 0 < c → c < n → c ≠ (downF now fuel s i n).2 →
        leE now (expAt (downF now fuel s i n).1 ((c - 1) / 2))
          (expAt (downF now fuel s i n).1 c)) ∧
      (0 < (downF now fuel s i n).2 → ∀ c, c < n →
        (c - 1) / 2 = (downF now fuel s i n).2 →
        leE now (expAt (downF now fuel s i n).1 (((downF now fuel s i n).2 - 1) / 2))
          (expAt (downF now fuel s i n).1 c)) ∧
      (i < (downF now fuel s i n).2 →
        leE now (expAt (downF now fuel s i n).1 (((downF now fuel s i n).2 - 1) / 2))
          (expAt (downF now fuel s i n).1 (downF now fuel s i n).2)) := by
  induction fuel with
  | zero =>
    intro s i n hfuel hn hs ha hb
    rw [downF]
    refine ⟨fun _ => rfl, ?_, ?_, ?_⟩
    · intro c hc0 hcn hci
      exact ha c hc0 hcn (by omega) hci
    · intro h0 c hcn hpc
      exact absurd hpc (by omega)
    · omega
  | succ fuel ih =>
    intro s i n hfuel hn hs ha hb
    rw [downF]
    by_cases hge : 2 * i + 1 ≥ n
    · rw [if_pos hge]
      refine ⟨fun _ => rfl, ?_, ?_, ?_⟩
      · intro c hc0 hcn hci
        exact ha c hc0 hcn (by omega) hci
      · intro h0 c hcn hpc
        exact absurd hpc (by omega)
      · omega
    · rw [if_neg hge]
      have hlt : 2 * i + 1 < n := by omega
      obtain ⟨hcor, hccn, hicc, hpcc⟩ := chooseChild_range now s i n hlt
      have hsel := chooseChild_min now s i n hlt
      by_cases hless : lessB s now (chooseChild now s i n) i
      · rw [if_pos hless]
        have hLE : leE now (expAt s (chooseChild now s i n)) (expAt s i) :=
          leE_of_lessB hless
        have hilen : i < s.pq.length := by omega
        have hjlen : chooseChild now s i n < s.pq.length := by omega
        have hEi : expAt (swapIt s i (chooseChild now s i n)) i
            = expAt s (chooseChild now s i n) := by
          rw [swap_expAt s i _ i hilen hjlen, if_neg (by omega), if_pos rfl]
        have hEj : expAt (swapIt s i (chooseChild now s i n)) (chooseChild now s i n)
            = expAt s i := by
          rw [swap_expAt s i _ _ hilen hjlen, if_pos rfl]
        have hEo : ∀ m, m ≠ i → m ≠ chooseChild now s i n →
            expAt (swapIt s i (chooseChild now s i n)) m = expAt s m := by
          intro m h1 h2
          rw [swap_expAt s i _ m hilen hjlen, if_neg h2, if_neg h1]
        have hA2 : ∀ c, 0 < c → c < n → (c - 1) / 2 ≠ chooseChild now s i n →
            c ≠ chooseChild now s i n →
            leE now (expAt (swapIt s i (chooseChild now s i n)) ((c - 1) / 2))
              (expAt (swapIt s i (chooseChild now s i n)) c) := by
          intro c hc0 hcn hpcj hcj
          by_cases hci : c = i
          · have hi0 : 0 < i := by omega
            have hgne : (i - 1) / 2 ≠ i := by omega
            have hgnej : (i - 1) / 2 ≠ chooseChild now s i n := by omega
            rw [hci, hEi, hEo _ hgne hgnej]
            exact hb hi0 (chooseChild now s i n) hccn hpcc
          · by_cases hpci : (c - 1) / 2 = i
            · rw [hpci, hEi, hEo c hci hcj]
              exact hsel c hc0 hcn hpci hcj
            · rw [hEo _ hpci hpcj, hEo c hci hcj]
              exact ha c hc0 hcn hpci hci
        have hB2 : 0 < chooseChild now s i n → ∀ c, c < n →
            (c - 1) / 2 = chooseChild now s i n →
            leE now (expAt (swapIt s i (chooseChild now s i n))
                ((chooseChild now s i n - 1) / 2))
              (expAt (swapIt s i (chooseChild now s i n)) c) := by
          intro h0 c hcn hpc
          have hcne : c ≠ i := by omega
          have hcnej : c ≠ chooseChild now s i n := by omega
          rw [hpcc, hEi, hEo c hcne hcnej]
          have h1 : 0 < c := by omega
          have h2 : (c - 1) / 2 ≠ i := by rw [hpc]; omega
          have hres := ha c h1 hcn h2 hcne
          rw [hpc] at hres
          exact hres
        obtain ⟨hK0, hK1, hK4, hK3⟩ := ih (swapIt s i (chooseChild now s i n))
          (chooseChild now s i n) n (by omega) (by rw [swap_pq_length]; exact hn)
          (swap_SWF hs _ _ hilen hjlen) hA2 hB2
        obtain ⟨_, _, hback, _⟩ := downF_pres now fuel (swapIt s i (chooseChild now s i n))
          (chooseChild now s i n) n (by rw [swap_pq_length]; exact hn)
          (swap_SWF hs _ _ hilen hjlen)
        refine ⟨?_, hK1, hK4, ?_⟩
        · intro heq
          exact absurd heq (by omega)
        · intro hmoved
          by_cases hstay :
              (downF now fuel (swapIt s i (chooseChild now s i n))
                (chooseChild now s i n) n).2 = chooseChild now s i n
          · rw [hstay, hK0 hstay, hpcc, hEi, hEj]
            exact hLE
          · exact hK3 (by omega)
      · rw [if_neg hless]
        have hnback : leE now (expAt s i) (expAt s (chooseChild now s i n)) :=
          leE_of_not_lessB (Bool.not_eq_true _ ▸ hless)
        refine ⟨fun _ => rfl, ?_, ?_, ?_⟩
        · intro c hc0 hcn hci
          by_cases hpci : (c - 1) / 2 = i
          · by_cases hcj : c = chooseChild now s i n
            · rw [hpci, hcj]
              exact hnback
            · rw [hpci]
              exact leE_trans hnback (hsel c hc0 hcn hpci hcj)
          · exact ha c hc0 hcn hpci hci
        · intro h0 c hcn hpc
          exact hb h0 c hcn hpc
        · omega

/-! ### Heap order through the four heap package operations -/

theorem HOrd_anti {s : Items} {now : Int} {n n2 : Nat} (h : HOrd s now n) (hle : n2 ≤ n) :
    HOrd s now n2 := fun c hc0 hcn => h c hc0 (by omega)

theorem heapUp_hord {s : Items} (now : Int) (j n : Nat) (hjn : j < n) (hn : n ≤ s.pq.length)
    (hs : SWF s)
    (ha : ∀ c, 0 < c → c < n → c ≠ j → leE now (expAt s ((c - 1) / 2)) (expAt s c))
    (hb : ∀ c, c < n → 0 < c → (c - 1) / 2 = j →
      leE now (expAt s ((j - 1) / 2)) (expAt s c)) :
    HOrd (heapUp now s j) now n :=
  upF_hord now (j + 1) s j n (Nat.lt_succ_self j) hjn hn hs ha hb

theorem popItem_expAt (s : Items) (m : Nat) (hm : m + 1 < s.pq.length) :
    expAt (popItem s).1 m = expAt s m := by
  have hidp : idAt (popItem s).1 m = idAt s m := by
    show s.pq.dropLast.getD m 0 = s.pq.getD m 0
    exact getD_dropLast _ _ _ hm
  rw [expAt, itemAt, hidp]
  exact (popItem_content s (idAt s m)).2.2

theorem popItem_hord {s : Items} {now : Int} (h : HOrd s now (s.pq.length - 1)) :
    HOrd (popItem s).1 now (s.pq.length - 1) := by
  intro c hc0 hcn
  rw [popItem_expAt s c (by omega), popItem_expAt s ((c - 1) / 2) (by omega)]
  exact h c hc0 hcn

theorem pushItem_expAt_old {s : Items} (hs : SWF s) (it : Item) (m : Nat)
    (hm : m < s.pq.length) : expAt (pushItem s it) m = expAt s m := by
  rw [expAt, itemAt, pushItem_idAt_old s it m hm,
    pushItem_getItem_old s it _ (hs.valid _ (idAt_mem hm))]
  rfl

theorem pushItem_expAt_new (s : Items) (it : Item) :
    expAt (pushItem s it) s.pq.length = it.expire := by
  rw [expAt, itemAt, pushItem_idAt_new, pushItem_getItem_new]

theorem heapPush_hord {s : Items} (now : Int) (it : Item) (hs : SWF s)
    (hk : it.k ∉ pqKeys s) (h : HOrd s now s.pq.length) :
    HOrd (heapPush now s it) now (s.pq.length + 1) := by
  have hp : SWF (pushItem s it) := pushItem_SWF hs it hk
  have hlenp : (pushItem s it).pq.length = s.pq.length + 1 := by
    rw [pushItem_pq]
    simp
  have hpush : heapPush now s it
      = heapUp now (pushItem s it) ((pushItem s it).pq.length - 1) := rfl
  rw [hpush, hlenp]
  show HOrd (heapUp now (pushItem s it) (s.pq.length + 1 - 1)) now (s.pq.length + 1)
  refine heapUp_hord now _ _ (by omega) (by omega) hp ?_ ?_
  · intro c hc0 hcn hcj
    have hcl : c < s.pq.length := by omega
    have hpl : (c - 1) / 2 < s.pq.length := by omega
    rw [pushItem_expAt_old hs it c hcl, pushItem_expAt_old hs it _ hpl]
    exact h c hc0 hcl
  · intro c hcn hc0 hpc
    exact absurd hpc (by omega)

theorem heapPop_hord {s : Items} (now : Int) (hs : SWF s) (hpos : 0 < s.pq.length)
    (h : HOrd s now s.pq.length) : HOrd (heapPop now s).1 now (s.pq.length - 1) := by
  have hn : s.pq.length - 1 < s.pq.length := by omega
  have hs1 : SWF (swapIt s 0 (s.pq.length - 1)) := swap_SWF hs _ _ hpos hn
  have hlen1 : (swapIt s 0 (s.pq.length - 1)).pq.length = s.pq.length := swap_pq_length s _ _
  obtain ⟨hK0, hK1, hK4, hK3⟩ := downF_hord now (s.pq.length - 1)
    (swapIt s 0 (s.pq.length - 1)) 0 (s.pq.length - 1) (by omega) (by omega) hs1
    (by
      intro c hc0 hcn hpci hci
      rw [swap_expAt s 0 _ c hpos hn, if_neg (by omega), if_neg hci,
        swap_expAt s 0 _ _ hpos hn, if_neg (by omega), if_neg hpci]
      exact h c hc0 (by omega))
    (by omega)
  obtain ⟨_, hsb2, hup2, _⟩ := downF_pres now (s.pq.length - 1)
    (swapIt s 0 (s.pq.length - 1)) 0 (s.pq.length - 1) (by omega) hs1
  have hord2 : HOrd (downF now (s.pq.length - 1) (swapIt s 0 (s.pq.length - 1)) 0
      (s.pq.length - 1)).1 now (s.pq.length - 1) := by
    intro c hc0 hcn
    by_cases hcr : c = (downF now (s.pq.length - 1) (swapIt s 0 (s.pq.length - 1)) 0
        (s.pq.length - 1)).2
    · rw [hcr]
      exact hK3 (by omega)
    · exact hK1 c hc0 hcn hcr
  have hpop : heapPop now s = popItem (downF now (s.pq.length - 1)
      (swapIt s 0 (s.pq.length - 1)) 0 (s.pq.length - 1)).1 := rfl
  rw [hpop]
  have hlen2 : (downF now (s.pq.length - 1) (swapIt s 0 (s.pq.length - 1)) 0
      (s.pq.length - 1)).1.pq.length = s.pq.length := by
    rw [sameBuf_pq_length hsb2, hlen1]
  have hord2b : HOrd (downF now (s.pq.length - 1) (swapIt s 0 (s.pq.length - 1)) 0
      (s.pq.length - 1)).1 now ((downF now (s.pq.length - 1) (swapIt s 0 (s.pq.length - 1)) 0
      (s.pq.length - 1)).1.pq.length - 1) := by
    rw [hlen2]
    exact hord2
  have hres := popItem_hord hord2b
  rw [hlen2] at hres
  exact hres

theorem heapFix_hord {s : Items} (now : Int) (i : Nat) (hi : i < s.pq.length) (hs : SWF s)
    (ha : ∀ c, 0 < c → c < s.pq.length → (c - 1) / 2 ≠ i → c ≠ i →
      leE now (expAt s ((c - 1) / 2)) (expAt s c))
    (hb : 0 < i → ∀ c, c < s.pq.length → (c - 1) / 2 = i →
      leE now (expAt s ((i - 1) / 2)) (expAt s c)) :
    HOrd (heapFix now s i) now s.pq.length := by
  obtain ⟨hK0, hK1, hK4, hK3⟩ := downF_hord now s.pq.length s i s.pq.length
    (by omega) (le_refl _) hs ha hb
  obtain ⟨hd1, hd2, hdle, _⟩ := downF_pres now s.pq.length s i s.pq.length (le_refl _) hs
  have hfix : heapFix now s i = if decide (i < (downF now s.pq.length s i s.pq.length).2)
      then (downF now s.pq.length s i s.pq.length).1
      else heapUp now (downF now s.pq.length s i s.pq.length).1 i := rfl
  rw [hfix]
  by_cases hmv : i < (downF now s.pq.length s i s.pq.length).2
  · rw [if_pos (by simpa using hmv)]
    intro c hc0 hcn
    by_cases hcr : c = (downF now s.pq.length s i s.pq.length).2
    · rw [hcr]
      exact hK3 hmv
    · exact hK1 c hc0 hcn hcr
  · rw [if_neg (by simpa using hmv)]
    have heqi : (downF now s.pq.length s i s.pq.length).2 = i := by omega
    have heqs : (downF now s.pq.length s i s.pq.length).1 = s := hK0 heqi
    rw [heqs]
    refine heapUp_hord now i s.pq.length hi (le_refl _) hs ?_ ?_
    · intro c hc0 hcn hcj
      have h2 := hK1 c hc0 hcn (by omega)
      rw [heqs] at h2
      exact h2
    · intro c hcn hc0 hpc
      by_cases hi0 : 0 < i
      · have h2 := hK4 (by omega) c hcn (by omega)
        rw [heqs, heqi] at h2
        exact h2
      · have hieq : i = 0 := by omega
        have h2 := hK1 c hc0 hcn (by omega)
        rw [heqs] at h2
        rw [hpc] at h2
        rw [show (i - 1) / 2 = i by omega]
        exact h2

theorem heapRemove_hord {s : Items} (now : Int) (i : Nat) (hi : i < s.pq.length)
    (hs : SWF s) (h : HOrd s now s.pq.length) :
    HOrd (heapRemove now s i).1 now (s.pq.length - 1) := by
  by_cases hin : i = s.pq.length - 1
  · have hrm : heapRemove now s i = popItem s := by
      rw [heapRemove, if_pos hin]
    rw [hrm]
    exact popItem_hord (HOrd_anti h (by omega))
  · have hi2 : i < s.pq.length - 1 := by omega
    have hn : s.pq.length - 1 < s.pq.length := by omega
    have hs1 : SWF (swapIt s i (s.pq.length - 1)) := swap_SWF hs _ _ hi hn
    have hlen1 : (swapIt s i (s.pq.length - 1)).pq.length = s.pq.length := swap_pq_length s _ _
    have hEo1 : ∀ m, m ≠ i → m ≠ s.pq.length - 1 →
        expAt (swapIt s i (s.pq.length - 1)) m = expAt s m := by
      intro m h1 h2
      rw [swap_expAt s i _ m hi hn, if_neg h2, if_neg h1]
    obtain ⟨hK0, hK1, hK4, hK3⟩ := downF_hord now (s.pq.length - 1)
      (swapIt s i (s.pq.length - 1)) i (s.pq.length - 1) (by omega) (by omega) hs1
      (by
        intro c hc0 hcn hpci hci
        rw [hEo1 c hci (by omega), hEo1 _ hpci (by omega)]
        exact h c hc0 (by omega))
      (by
        intro hi0 c hcn hpc
        have hcne : c ≠ i := by omega
        rw [hEo1 c hcne (by omega), hEo1 _ (by omega) (by omega)]
        refine leE_trans (h i hi0 hi) ?_
        have h2 := h c (by omega) (by omega)
        rw [hpc] at h2
        exact h2)
    obtain ⟨hd1, hd2, hdle, _⟩ := downF_pres now (s.pq.length - 1)
      (swapIt s i (s.pq.length - 1)) i (s.pq.length - 1) (by omega) hs1
    have hord3 : HOrd (if decide (i < (downF now (s.pq.length - 1)
        (swapIt s i (s.pq.length - 1)) i (s.pq.length - 1)).2)
        then (downF now (s.pq.length - 1) (swapIt s i (s.pq.length - 1)) i
          (s.pq.length - 1)).1
        else heapUp now (downF now (s.pq.length - 1) (swapIt s i (s.pq.length - 1)) i
          (s.pq.length - 1)).1 i) now (s.pq.length - 1) := by
      by_cases hmv : i < (downF now (s.pq.length - 1) (swapIt s i (s.pq.length - 1)) i
          (s.pq.length - 1)).2
      · rw [if_pos (by simpa using hmv)]
        intro c hc0 hcn
        by_cases hcr : c = (downF now (s.pq.length - 1) (swapIt s i (s.pq.length - 1)) i
            (s.pq.length - 1)).2
        · rw [hcr]
          exact hK3 hmv
        · exact hK1 c hc0 hcn hcr
      · rw [if_neg (by simpa using hmv)]
        have heqi : (downF now (s.pq.length - 1) (swapIt s i (s.pq.length - 1)) i
            (s.pq.length - 1)).2 = i := by omega
        have heqs : (downF now (s.pq.length - 1) (swapIt s i (s.pq.length - 1)) i
            (s.pq.length - 1)).1 = swapIt s i (s.pq.length - 1) := hK0 heqi
        rw [heqs]
        refine heapUp_hord now i (s.pq.length - 1) hi2 (by omega) hs1 ?_ ?_
        · intro c hc0 hcn hcj
          have h2 := hK1 c hc0 hcn (by omega)
          rw [heqs] at h2
          exact h2
        · intro c hcn hc0 hpc
          by_cases hi0 : 0 < i
          · have h2 := hK4 (by omega) c hcn (by omega)
            rw [heqs, heqi] at h2
            exact h2
          · have hieq : i = 0 := by omega
            have h2 := hK1 c hc0 hcn (by omega)
            rw [heqs] at h2
            rw [hpc] at h2
            rw [show (i - 1) / 2 = i by omega]
            exact h2
    have hrm : heapRemove now s i = popItem (if decide (i < (downF now (s.pq.length - 1)
        (swapIt s i (s.pq.length - 1)) i (s.pq.length - 1)).2)
        then (downF now (s.pq.length - 1) (swapIt s i (s.pq.length - 1)) i
          (s.pq.length - 1)).1
        else heapUp now (downF now (s.pq.length - 1) (swapIt s i (s.pq.length - 1)) i
          (s.pq.length - 1)).1 i) := by
      rw [heapRemove, if_neg hin]
      rfl
    rw [hrm]
    have hlen3 : (if decide (i < (downF now (s.pq.length - 1)
        (swapIt s i (s.pq.length - 1)) i (s.pq.length - 1)).2)
        then (downF now (s.pq.length - 1) (swapIt s i (s.pq.length - 1)) i
          (s.pq.length - 1)).1
        else heapUp now (downF now (s.pq.length - 1) (swapIt s i (s.pq.length - 1)) i
          (s.pq.length - 1)).1 i).pq.length = s.pq.length := by
      by_cases hmv : i < (downF now (s.pq.length - 1) (swapIt s i (s.pq.length - 1)) i
          (s.pq.length - 1)).2
      · rw [if_pos (by simpa using hmv)]
        rw [sameBuf_pq_length hd2, hlen1]
      · rw [if_neg (by simpa using hmv)]
        have hup := (heapUp_pres now i (by rw [sameBuf_pq_length hd2, hlen1]; omega) hd1).2.1
        rw [sameBuf_pq_length hup, sameBuf_pq_length hd2, hlen1]
    have hord3b : HOrd (if decide (i < (downF now (s.pq.length - 1)
        (swapIt s i (s.pq.length - 1)) i (s.pq.length - 1)).2)
        then (downF now (s.pq.length - 1) (swapIt s i (s.pq.length - 1)) i
          (s.pq.length - 1)).1
        else heapUp now (downF now (s.pq.length - 1) (swapIt s i (s.pq.length - 1)) i
          (s.pq.length - 1)).1 i) now ((if decide (i < (downF now (s.pq.length - 1)
        (swapIt s i (s.pq.length - 1)) i (s.pq.length - 1)).2)
        then (downF now (s.pq.length - 1) (swapIt s i (s.pq.length - 1)) i
          (s.pq.length - 1)).1
        else heapUp now (downF now (s.pq.length - 1) (swapIt s i (s.pq.length - 1)) i
          (s.pq.length - 1)).1 i).pq.length - 1) := by
      rw [hlen3]
      exact hord3
    have hres := popItem_hord hord3b
    rw [hlen3] at hres
    exact hres

/-! ### Cache refresh and update -/

theorem mem_pq_pos {s : Items} {id : Nat} (hid : id ∈ s.pq) :
    ∃ m, m < s.pq.length ∧ idAt s m = id := by
  rcases List.mem_iff_getElem.1 hid with ⟨m, hm, he⟩
  refine ⟨m, hm, ?_⟩
  rw [idAt, List.getD_eq_getElem?_getD, List.getElem?_eq_getElem hm, he]
  rfl

theorem setStore_SWF {s : Items} (hs : SWF s) (id : Nat) (it : Item)
    (hk : it.k = (getItem s id).k) (hidx : it.index = (getItem s id).index) :
    SWF (setStore s id it) := by
  have hglen : (setStore s id it).store.length = s.store.length := by
    simp [setStore]
  have hgpq : (setStore s id it).pq = s.pq := rfl
  have hgmap : (setStore s id it).keyToItem = s.keyToItem := rfl
  have hcontent : ∀ id2, (getItem (setStore s id it) id2).k = (getItem s id2).k ∧
      (getItem (setStore s id it) id2).index = (getItem s id2).index := by
    intro id2
    by_cases h1 : id < s.store.length
    · by_cases h2 : id2 = id
      · rw [h2, getItem_setStore_self s id it h1, hk, hidx]
        exact ⟨rfl, rfl⟩
      · rw [getItem_setStore_ne s id it id2 h2]
        exact ⟨rfl, rfl⟩
    · have h2 : s.store.set id it = s.store := List.set_eq_of_length_le (Nat.le_of_not_lt h1)
      show ((s.store.set id it).getD id2 default).k = _ ∧
        ((s.store.set id it).getD id2 default).index = _
      rw [h2]
      exact ⟨rfl, rfl⟩
  refine ⟨hgpq ▸ hs.nodup, ?_, ?_, hgmap ▸ hs.mapNodup, ?_, ?_⟩
  · intro id2 hid2
    rw [hglen]
    exact hs.valid id2 (hgpq ▸ hid2)
  · have : pqKeys (setStore s id it) = pqKeys s := by
      rw [pqKeys, pqKeys, hgpq]
      exact List.map_congr_left (fun a _ => (hcontent a).1)
    rw [this]
    exact hs.keysNodup
  · intro k2 id2
    rw [hgmap, hgpq, hs.mapKeys k2 id2, (hcontent id2).1]
  · intro m hm
    rw [hgpq] at hm
    have : itemAt (setStore s id it) m = getItem (setStore s id it) (idAt s m) := rfl
    rw [this, (hcontent (idAt s m)).2]
    exact hs.index m hm

theorem setStore_expAt {s : Items} (hs : SWF s) {id : Nat} {m : Nat}
    (hm : m < s.pq.length) (hne : idAt s m ≠ id) (it : Item) :
    expAt (setStore s id it) m = expAt s m := by
  rw [expAt, itemAt]
  have : idAt (setStore s id it) m = idAt s m := rfl
  rw [this, getItem_setStore_ne s id it _ hne]
  rfl

theorem refresh_pres {c : Cache} {now : Int} {id : Nat} (hs : SWF c.items)
    (hord : HOrd c.items now c.items.pq.length) (hid : id ∈ c.items.pq) :
    SWF (refresh c now id).items ∧
    HOrd (refresh c now id).items now (refresh c now id).items.pq.length ∧
    (refresh c now id).items.pq.length = c.items.pq.length ∧
    (refresh c now id).items.keyToItem = c.items.keyToItem ∧
    (∀ id2, (getItem (refresh c now id).items id2).k = (getItem c.items id2).k ∧
      (getItem (refresh c now id).items id2).v = (getItem c.items id2).v) ∧
    (∀ id2, id2 ≠ id →
      (getItem (refresh c now id).items id2).expire = (getItem c.items id2).expire) ∧
    (getItem (refresh c now id).items id).expire = now + c.ttl ∧
    (refresh c now id).items.pq.Perm c.items.pq ∧
    (refresh c now id).size = c.size ∧ (refresh c now id).ttl = c.ttl ∧
    (refresh c now id).evLog = c.evLog := by
  obtain ⟨m, hm, hidm⟩ := mem_pq_pos hid
  have hvalid : id < c.items.store.length := hs.valid id hid
  have hidxm : (getItem c.items id).index = (m : Int) := by
    have := hs.index m hm
    rw [itemAt, hidm] at this
    exact this
  have hs1 : SWF (setStore c.items id { getItem c.items id with expire := now + c.ttl }) :=
    setStore_SWF hs id _ rfl rfl
  set s1 := setStore c.items id { getItem c.items id with expire := now + c.ttl } with hs1d
  have hg1 : getItem s1 id = { getItem c.items id with expire := now + c.ttl } := by
    rw [hs1d]
    exact getItem_setStore_self c.items id _ hvalid
  have hpos : ((getItem s1 id).index).toNat = m := by
    rw [hg1]
    show ((getItem c.items id).index).toNat = m
    rw [hidxm]
    exact Int.toNat_ofNat m
  have hlen1 : s1.pq.length = c.items.pq.length := rfl
  have hidAt1 : ∀ m2, idAt s1 m2 = idAt c.items m2 := fun m2 => rfl
  have hexpAt1 : ∀ m2, m2 < c.items.pq.length → m2 ≠ m → expAt s1 m2 = expAt c.items m2 := by
    intro m2 hm2 hne
    refine setStore_expAt hs hm2 ?_ _
    intro he
    exact hne (idAt_inj hs.nodup hm2 hm (he.trans hidm.symm))
  have hrefresh : refresh c now id = { c with items := heapFix now s1 m } := by
    rw [refresh]
    show ({ c with items := heapFix now _ ((getItem s1 id).index).toNat } : Cache) = _
    rw [hpos]
  obtain ⟨hf1, hf2⟩ := heapFix_pres now m (by rw [hlen1]; exact hm) hs1
  have hford : HOrd (heapFix now s1 m) now s1.pq.length := by
    refine heapFix_hord now m (by rw [hlen1]; exact hm) hs1 ?_ ?_
    · intro c2 hc0 hcn hpc hne
      rw [hlen1] at hcn
      rw [hexpAt1 c2 hcn hne, hexpAt1 _ (by omega) hpc]
      exact hord c2 hc0 hcn
    · intro h0 c2 hcn hpc
      rw [hlen1] at hcn
      have hcne : c2 ≠ m := by omega
      rw [hexpAt1 c2 hcn hcne, hexpAt1 _ (by omega) (by omega)]
      refine leE_trans (hord m h0 hm) ?_
      have h2 := hord c2 (by omega) hcn
      rw [hpc] at h2
      exact h2
  have hlenf : (heapFix now s1 m).pq.length = c.items.pq.length := by
    rw [sameBuf_pq_length hf2, hlen1]
  refine ⟨?_, ?_, ?_, ?_, ?_, ?_, ?_, ?_, ?_, ?_, ?_⟩
  · rw [hrefresh]
    exact hf1
  · rw [hrefresh]
    show HOrd (heapFix now s1 m) now (heapFix now s1 m).pq.length
    rw [hlenf, ← hlen1]
    exact hford
  · rw [hrefresh]
    exact hlenf
  · rw [hrefresh]
    show (heapFix now s1 m).keyToItem = c.items.keyToItem
    rw [hf2.1]
    rfl
  · intro id2
    rw [hrefresh]
    constructor
    · rw [(hf2.2.2.2 id2).1]
      show (getItem s1 id2).k = _
      by_cases h2 : id2 = id
      · rw [h2, hg1]
      · rw [hs1d, getItem_setStore_ne c.items id _ id2 h2]
    · rw [(hf2.2.2.2 id2).2.1]
      show (getItem s1 id2).v = _
      by_cases h2 : id2 = id
      · rw [h2, hg1]
      · rw [hs1d, getItem_setStore_ne c.items id _ id2 h2]
  · intro id2 hne
    rw [hrefresh]
    show (getItem (heapFix now s1 m) id2).expire = _
    rw [(hf2.2.2.2 id2).2.2]
    show (getItem s1 id2).expire = _
    rw [hs1d, getItem_setStore_ne c.items id _ id2 hne]
  · rw [hrefresh]
    show (getItem (heapFix now s1 m) id).expire = now + c.ttl
    rw [(hf2.2.2.2 id).2.2, hg1]
  · rw [hrefresh]
    show (heapFix now s1 m).pq.Perm c.items.pq
    exact hf2.2.2.1
  · rw [hrefresh]
  · rw [hrefresh]
  · rw [hrefresh]

theorem setStore_expAt_same {s : Items} {id : Nat} (it : Item)
    (he : it.expire = (getItem s id).expire) (m : Nat) :
    expAt (setStore s id it) m = expAt s m := by
  rw [expAt, itemAt]
  have hida : idAt (setStore s id it) m = idAt s m := rfl
  rw [hida]
  by_cases h2 : idAt s m = id
  · rw [h2]
    by_cases h1 : id < s.store.length
    · rw [getItem_setStore_self s id it h1, he]
      rw [expAt, itemAt, h2]
    · have h3 : s.store.set id it = s.store := List.set_eq_of_length_le (Nat.le_of_not_lt h1)
      show ((s.store.set id it).getD id default).expire = _
      rw [h3, expAt, itemAt, h2]
      rfl
  · rw [getItem_setStore_ne s id it _ h2]
    rw [expAt, itemAt]

theorem update_pres {c : Cache} {now : Int} {id : Nat} (v : Nat) (hs : SWF c.items)
    (hord : HOrd c.items now c.items.pq.length) (hid : id ∈ c.items.pq) :
    SWF (update c now id v).items ∧
    HOrd (update c now id v).items now (update c now id v).items.pq.length ∧
    (update c now id v).items.pq.length = c.items.pq.length ∧
    (update c now id v).items.keyToItem = c.items.keyToItem ∧
    (∀ id2, (getItem (update c now id v).items id2).k = (getItem c.items id2).k) ∧
    (∀ id2, id2 ≠ id →
      (getItem (update c now id v).items id2).v = (getItem c.items id2).v ∧
      (getItem (update c now id v).items id2).expire = (getItem c.items id2).expire) ∧
    (getItem (update c now id v).items id).v = v ∧
    (getItem (update c now id v).items id).expire = now + c.ttl ∧
    (update c now id v).items.pq.Perm c.items.pq ∧
    (update c now id v).size = c.size ∧ (update c now id v).ttl = c.ttl ∧
    (update c now id v).evLog = c.evLog := by
  have hvalid : id < c.items.store.length := hs.valid id hid
  have hs1 : SWF (setStore c.items id { getItem c.items id with v := v }) :=
    setStore_SWF hs id _ rfl rfl
  set c2 : Cache := { c with items := setStore c.items id { getItem c.items id with v := v } }
    with hc2d
  have hupd : update c now id v = refresh c2 now id := rfl
  have hexp2 : ∀ m2, expAt c2.items m2 = expAt c.items m2 := by
    intro m2
    show expAt (setStore c.items id { getItem c.items id with v := v }) m2 = _
    exact setStore_expAt_same { getItem c.items id with v := v } rfl m2
  have hord2 : HOrd c2.items now c2.items.pq.length := by
    intro cc hc0 hcn
    show leE now (expAt c2.items ((cc - 1) / 2)) (expAt c2.items cc)
    rw [hexp2, hexp2]
    exact hord cc hc0 hcn
  have hid2 : id ∈ c2.items.pq := hid
  obtain ⟨r1, r2, r3, r4, r5, r6, r7, r8, r9, r10, r11⟩ := refresh_pres (c := c2)
    hs1 hord2 hid2
  have hg2 : getItem c2.items id = { getItem c.items id with v := v } :=
    getItem_setStore_self c.items id _ hvalid
  have hcont2 : ∀ id2, id2 ≠ id → getItem c2.items id2 = getItem c.items id2 :=
    fun id2 h2 => getItem_setStore_ne c.items id _ id2 h2
  rw [hupd]
  refine ⟨r1, r2, r3, r4, ?_, ?_, ?_, ?_, r8, r9, r10, r11⟩
  · intro id2
    rw [(r5 id2).1]
    by_cases h2 : id2 = id
    · rw [h2, hg2]
    · rw [hcont2 id2 h2]
  · intro id2 h2
    constructor
    · rw [(r5 id2).2, hcont2 id2 h2]
    · rw [r6 id2 h2, hcont2 id2 h2]
  · rw [(r5 id).2, hg2]
  · rw [r7]

theorem evict_pres {c : Cache} {now : Int} (hs : SWF c.items)
    (hord : HOrd c.items now c.items.pq.length) (hpos : 0 < c.items.pq.length) :
    SWF (evict c now).items ∧
    HOrd (evict c now).items now (evict c now).items.pq.length ∧
    (evict c now).items.pq.length = c.items.pq.length - 1 ∧
    (evict c now).evLog = c.evLog ++ [(itemAt c.items 0).v] ∧
    List.lookup (keyAt c.items 0) (evict c now).items.keyToItem = none ∧
    (∀ k2, k2 ≠ keyAt c.items 0 →
      List.lookup k2 (evict c now).items.keyToItem = List.lookup k2 c.items.keyToItem) ∧
    (∀ id, (getItem (evict c now).items id).k = (getItem c.items id).k ∧
      (getItem (evict c now).items id).v = (getItem c.items id).v ∧
      (getItem (evict c now).items id).expire = (getItem c.items id).expire) ∧
    (pqKeys (evict c now).items ++ [keyAt c.items 0]).Perm (pqKeys c.items) ∧
    (evict c now).size = c.size ∧ (evict c now).ttl = c.ttl := by
  obtain ⟨p1, p2, p3, p4, p5, p6, p7⟩ := heapPop_pres now hs hpos
  have hording := heapPop_hord now hs hpos hord
  have hev1 : (evict c now).items = (heapPop now c.items).1 := rfl
  have hev2 : (evict c now).evLog
      = c.evLog ++ [(getItem (heapPop now c.items).1 (heapPop now c.items).2).v] := rfl
  have hev3 : (evict c now).size = c.size := rfl
  have hev4 : (evict c now).ttl = c.ttl := rfl
  refine ⟨?_, ?_, ?_, ?_, ?_, ?_, ?_, ?_, hev3, hev4⟩
  · rw [hev1]
    exact p1
  · rw [hev1, p3]
    exact hording
  · rw [hev1]
    exact p3
  · rw [hev2, p2, (p4 (idAt c.items 0)).2.1]
    rfl
  · rw [hev1]
    exact p5
  · intro k2 h2
    rw [hev1]
    exact p6 k2 h2
  · intro id
    rw [hev1]
    exact p4 id
  · rw [hev1]
    exact p7

theorem add_pres {c : Cache} {now : Int} (it : Item) (hs : SWF c.items)
    (hord : HOrd c.items now c.items.pq.length) (hk : it.k ∉ pqKeys c.items) :
    SWF (add c now it).items ∧
    HOrd (add c now it).items now (add c now it).items.pq.length ∧
    (add c now it).items.pq.length = c.items.pq.length + 1 ∧
    (∃ id, List.lookup it.k (add c now it).items.keyToItem = some id ∧
      (getItem (add c now it).items id).k = it.k ∧
      (getItem (add c now it).items id).v = it.v ∧
      (getItem (add c now it).items id).expire = it.expire) ∧
    (∀ k2, k2 ≠ it.k →
      List.lookup k2 (add c now it).items.keyToItem = List.lookup k2 c.items.keyToItem) ∧
    (pqKeys (add c now it).items).Perm (pqKeys c.items ++ [it.k]) ∧
    (add c now it).size = c.size ∧ (add c now it).ttl = c.ttl ∧
    (add c now it).evLog = c.evLog := by
  obtain ⟨q1, q2, q3, q4, q5⟩ := heapPush_pres now it hs hk
  have hording := heapPush_hord now it hs hk hord
  have hadd : add c now it = { c with items := heapPush now c.items it } := rfl
  refine ⟨?_, ?_, ?_, ?_, ?_, ?_, ?_, ?_, ?_⟩
  · rw [hadd]
    exact q1
  · rw [hadd]
    show HOrd (heapPush now c.items it) now (heapPush now c.items it).pq.length
    rw [q2]
    exact hording
  · rw [hadd]
    exact q2
  · rw [hadd]
    exact q3
  · intro k2 h2
    rw [hadd]
    exact q4 k2 h2
  · rw [hadd]
    exact q5
  · rw [hadd]
  · rw [hadd]
  · rw [hadd]

/-! ### The three Put branches, Get and Remove -/

theorem Put_hit {c : Cache} {now : Int} {k v id : Nat}
    (hl : List.lookup k c.items.keyToItem = some id) : Put c now k v = update c now id v := by
  rw [Put, hl]

theorem Put_fresh_cap {c : Cache} {now : Int} {k v : Nat}
    (hl : List.lookup k c.items.keyToItem = none)
    (hcap : (c.items.pq.length : Int) = c.size) :
    Put c now k v = add (evict c now) now
      { k := k, v := v, expire := now + c.ttl, index := 0 } := by
  rw [Put, hl]
  show add (if (c.items.pq.length : Int) = c.size then evict c now else c) now
    { k := k, v := v, expire := now + c.ttl, index := 0 } = _
  rw [if_pos hcap]

theorem Put_fresh_nocap {c : Cache} {now : Int} {k v : Nat}
    (hl : List.lookup k c.items.keyToItem = none)
    (hcap : ¬ (c.items.pq.length : Int) = c.size) :
    Put c now k v = add c now { k := k, v := v, expire := now + c.ttl, index := 0 } := by
  rw [Put, hl]
  show add (if (c.items.pq.length : Int) = c.size then evict c now else c) now
    { k := k, v := v, expire := now + c.ttl, index := 0 } = _
  rw [if_neg hcap]

theorem Get_miss {c : Cache} {now : Int} {k : Nat}
    (hl : List.lookup k c.items.keyToItem = none) : Get c now k = ((0, false), c) := by
  rw [Get, hl]

theorem Get_hit {c : Cache} {now : Int} {k id : Nat}
    (hl : List.lookup k c.items.keyToItem = some id) :
    Get c now k = (((getItem (refresh c now id).items id).v, true), refresh c now id) := by
  rw [Get, hl]

theorem Remove_miss {c : Cache} {now : Int} {k : Nat}
    (hl : List.lookup k c.items.keyToItem = none) : Remove c now k = c := by
  rw [Remove, hl]

theorem Remove_hit {c : Cache} {now : Int} {k id : Nat}
    (hl : List.lookup k c.items.keyToItem = some id) :
    Remove c now k = deleteItem c now id := by
  rw [Remove, hl]

theorem deleteItem_pres {c : Cache} {now : Int} {id : Nat} (hs : SWF c.items)
    (hord : HOrd c.items now c.items.pq.length) (hid : id ∈ c.items.pq) :
    SWF (deleteItem c now id).items ∧
    HOrd (deleteItem c now id).items now (deleteItem c now id).items.pq.length ∧
    (deleteItem c now id).items.pq.length = c.items.pq.length - 1 ∧
    (deleteItem c now id).evLog = c.evLog ++ [(getItem c.items id).v] ∧
    List.lookup (getItem c.items id).k (deleteItem c now id).items.keyToItem = none ∧
    (∀ k2, k2 ≠ (getItem c.items id).k →
      List.lookup k2 (deleteItem c now id).items.keyToItem
        = List.lookup k2 c.items.keyToItem) ∧
    (∀ id2, (getItem (deleteItem c now id).items id2).k = (getItem c.items id2).k ∧
      (getItem (deleteItem c now id).items id2).v = (getItem c.items id2).v ∧
      (getItem (deleteItem c now id).items id2).expire = (getItem c.items id2).expire) ∧
    (pqKeys (deleteItem c now id).items ++ [(getItem c.items id).k]).Perm
      (pqKeys c.items) ∧
    (deleteItem c now id).size = c.size ∧ (deleteItem c now id).ttl = c.ttl := by
  obtain ⟨m, hm, hidm⟩ := mem_pq_pos hid
  have hidxm : (getItem c.items id).index = (m : Int) := by
    have := hs.index m hm
    rw [itemAt, hidm] at this
    exact this
  have hpos2 : ((getItem c.items id).index).toNat = m := by
    rw [hidxm]
    exact Int.toNat_ofNat m
  have hkeym : keyAt c.items m = (getItem c.items id).k := by
    rw [keyAt, itemAt, hidm]
  obtain ⟨q1, q2, q3, q4, q5, q6, q7⟩ := heapRemove_pres now m hm hs
  have hording := heapRemove_hord now m hm hs hord
  have hd1 : (deleteItem c now id).items = (heapRemove now c.items m).1 := by
    show (heapRemove now c.items ((getItem c.items id).index).toNat).1 = _
    rw [hpos2]
  have hd2 : (deleteItem c now id).evLog = c.evLog ++ [(getItem c.items id).v] := rfl
  have hd3 : (deleteItem c now id).size = c.size := rfl
  have hd4 : (deleteItem c now id).ttl = c.ttl := rfl
  refine ⟨?_, ?_, ?_, hd2, ?_, ?_, ?_, ?_, hd3, hd4⟩
  · rw [hd1]
    exact q1
  · rw [hd1, q3]
    exact hording
  · rw [hd1]
    exact q3
  · rw [hd1, ← hkeym]
    exact q5
  · intro k2 h2
    rw [hd1]
    exact q6 k2 (by rw [hkeym]; exact h2)
  · intro id2
    rw [hd1]
    exact q4 id2
  · rw [hd1, ← hkeym]
    exact q7

/-! ### Invariant preservation over operation sequences -/

theorem lookup_mem_pq {c : Cache} {k id : Nat} (hs : SWF c.items)
    (hl : List.lookup k c.items.keyToItem = some id) :
    id ∈ c.items.pq ∧ (getItem c.items id).k = k :=
  (hs.mapKeys k id).1 hl

theorem resident_key_lookup {c : Cache} (hs : SWF c.items) {m : Nat}
    (hm : m < c.items.pq.length) :
    List.lookup (keyAt c.items m) c.items.keyToItem = some (idAt c.items m) :=
  (hs.mapKeys _ _).2 ⟨idAt_mem hm, rfl⟩

theorem applyOp_CInv {c : Cache} {t : Int} (op : Op) (hsz : 1 ≤ c.size)
    (hinv : CInv c t) (ht : t ≤ op.time) :
    CInv (applyOp c op) op.time ∧ (applyOp c op).size = c.size ∧
      (applyOp c op).ttl = c.ttl := by
  obtain ⟨hs, hordt, hcap⟩ := hinv
  have hord : HOrd c.items op.time c.items.pq.length := HOrd_mono hordt ht
  cases op with
  | put now k v =>
    have hordn : HOrd c.items now c.items.pq.length := hord
    show CInv (Put c now k v) now ∧ (Put c now k v).size = c.size ∧
      (Put c now k v).ttl = c.ttl
    cases hl : List.lookup k c.items.keyToItem with
    | some id =>
      rw [Put_hit hl]
      obtain ⟨hid, _⟩ := lookup_mem_pq hs hl
      obtain ⟨r1, r2, r3, _, _, _, _, _, _, r10, r11, _⟩ := update_pres v hs hordn hid
      refine ⟨⟨r1, r2, ?_⟩, r10, r11⟩
      rw [r3, r10]
      exact hcap
    | none =>
      by_cases hcapq : (c.items.pq.length : Int) = c.size
      · rw [Put_fresh_cap hl hcapq]
        have hpos : 0 < c.items.pq.length := by omega
        obtain ⟨e1, e2, e3, _, e5, e6, _, _, e9, e10⟩ := evict_pres hs hordn hpos
        have hkne : k ≠ keyAt c.items 0 := by
          intro he
          have := resident_key_lookup hs hpos
          rw [← he, hl] at this
          cases this
        have hfresh : ({ k := k, v := v, expire := now + c.ttl, index := 0 } : Item).k
            ∉ pqKeys (evict c now).items := by
          show k ∉ pqKeys (evict c now).items
          rw [← lookup_none_iff e1 k]
          rw [e6 k hkne]
          exact hl
        obtain ⟨a1, a2, a3, _, _, _, a7, a8, _⟩ := add_pres _ e1 e2 hfresh
        refine ⟨⟨a1, a2, ?_⟩, ?_, ?_⟩
        · rw [a3, e3, a7, e9]
          push_cast
          omega
        · rw [a7, e9]
        · rw [a8, e10]
      · rw [Put_fresh_nocap hl hcapq]
        have hfresh : ({ k := k, v := v, expire := now + c.ttl, index := 0 } : Item).k
            ∉ pqKeys c.items := by
          show k ∉ pqKeys c.items
          rw [← lookup_none_iff hs k]
          exact hl
        obtain ⟨a1, a2, a3, _, _, _, a7, a8, _⟩ := add_pres _ hs hordn hfresh
        refine ⟨⟨a1, a2, ?_⟩, a7, a8⟩
        rw [a3, a7]
        push_cast
        omega
  | get now k =>
    have hordn : HOrd c.items now c.items.pq.length := hord
    show CInv (Get c now k).2 now ∧ (Get c now k).2.size = c.size ∧
      (Get c now k).2.ttl = c.ttl
    cases hl : List.lookup k c.items.keyToItem with
    | some id =>
      rw [Get_hit hl]
      obtain ⟨hid, _⟩ := lookup_mem_pq hs hl
      obtain ⟨r1, r2, r3, _, _, _, _, _, r9, r10, _⟩ := refresh_pres hs hordn hid
      refine ⟨⟨r1, r2, ?_⟩, r9, r10⟩
      rw [r3, r9]
      exact hcap
    | none =>
      rw [Get_miss hl]
      exact ⟨⟨hs, hordn, hcap⟩, rfl, rfl⟩
  | remove now k =>
    have hordn : HOrd c.items now c.items.pq.length := hord
    show CInv (Remove c now k) now ∧ (Remove c now k).size = c.size ∧
      (Remove c now k).ttl = c.ttl
    cases hl : List.lookup k c.items.keyToItem with
    | some id =>
      rw [Remove_hit hl]
      obtain ⟨hid, _⟩ := lookup_mem_pq hs hl
      obtain ⟨d1, d2, d3, _, _, _, _, _, d9, d10⟩ := deleteItem_pres hs hordn hid
      refine ⟨⟨d1, d2, ?_⟩, d9, d10⟩
      rw [d3, d9]
      have : (c.items.pq.length : Int) - 1 ≤ c.size := by omega
      push_cast
      omega
    | none =>
      rw [Remove_miss hl]
      exact ⟨⟨hs, hordn, hcap⟩, rfl, rfl⟩

theorem runOps_CInv {c : Cache} {t : Int} (ops : List Op) (hsz : 1 ≤ c.size)
    (hinv : CInv c t) (hmono : monoB t ops = true) :
    CInv (runOps c ops) (endTime t ops) ∧ (runOps c ops).size = c.size ∧
      (runOps c ops).ttl = c.ttl := by
  induction ops generalizing c t with
  | nil => exact ⟨hinv, rfl, rfl⟩
  | cons op rest ih =>
    rw [monoB, Bool.and_eq_true, decide_eq_true_iff] at hmono
    obtain ⟨h1, h2, h3⟩ := applyOp_CInv op hsz hinv hmono.1
    have hstep : runOps c (op :: rest) = runOps (applyOp c op) rest := rfl
    have hend : endTime t (op :: rest) = endTime op.time rest := rfl
    rw [hstep, hend]
    obtain ⟨g1, g2, g3⟩ := ih (by rw [h2]; exact hsz) h1 hmono.2
    exact ⟨g1, g2.trans h2, g3.trans h3⟩

theorem New_CInv (size ttl t : Int) (hsz : 0 ≤ size) : CInv (New size ttl) t := by
  refine ⟨⟨?_, ?_, ?_, ?_, ?_, ?_⟩, ?_, ?_⟩
  · exact List.nodup_nil
  · intro id hid
    cases hid
  · exact List.nodup_nil
  · exact List.nodup_nil
  · intro k id
    constructor
    · intro h
      cases h
    · rintro ⟨h, _⟩
      cases h
  · intro m hm
    simp [New] at hm
  · intro c2 hc0 hcn
    simp [New] at hcn
  · simp [New]
    exact hsz

theorem reach_CInv (size ttl t : Int) (ops : List Op) (hsz : 1 ≤ size)
    (hmono : monoB t ops = true) :
    CInv (reach size ttl ops) (endTime t ops) ∧ (reach size ttl ops).size = size ∧
      (reach size ttl ops).ttl = ttl := by
  have := runOps_CInv (c := New size ttl) (t := t) ops hsz
    (New_CInv size ttl t (by omega)) hmono
  exact this

/-! ### Helpers for the claim theorems -/

theorem pqKeys_perm_of {s1 s2 : Items} (hp : s2.pq.Perm s1.pq)
    (hk : ∀ id, (getItem s2 id).k = (getItem s1 id).k) :
    (pqKeys s2).Perm (pqKeys s1) := by
  have h1 : pqKeys s2 = s2.pq.map (fun id => (getItem s1 id).k) :=
    List.map_congr_left (fun a _ => hk a)
  rw [pqKeys] at h1 ⊢
  rw [h1]
  exact hp.map _

theorem expired_root {s : Items} {now : Int} {n : Nat} (h : HOrd s now n) (hn : 0 < n) :
    (∃ j, j < n ∧ expAt s j < now) → expAt s 0 < now := by
  rintro ⟨j, hj, hexp⟩
  by_contra hroot
  rcases HOrd_root_min h j hj with h1 | h1
  · exact hroot h1
  · exact hroot (lt_of_le_of_lt h1 hexp)

theorem fresh_root {s : Items} {now : Int} {n : Nat} (h : HOrd s now n) (hn : 0 < n)
    (hall : ∀ j, j < n → ¬ expAt s j < now) :
    ∀ j, j < n → expAt s 0 ≤ expAt s j := by
  intro j hj
  rcases HOrd_root_min h j hj with h1 | h1
  · exact absurd h1 (hall 0 hn)
  · exact h1

/-! ### The claims -/

/-- C1 counterexample: the claim says no cache handle with capacity ≤ 0 is ever
constructible, but New 0 3600 succeeds, returns a handle with capacity 0, and
the handle answers Get calls. -/
theorem C1_counterexample :
    (New 0 3600).size = 0 ∧ (Get (New 0 3600) 1 7).1 = (0, false)
      ∧ (Get (New 0 3600) 1 7).2 = New 0 3600 := ⟨rfl, rfl, rfl⟩

/-- C1 amended: New performs no validation of its capacity argument. For every
capacity ≤ 0 it returns a normal cache handle carrying that capacity, with
empty indexes and no error of any kind at construction time (the failure, if
any, surfaces only later, when a Put at capacity tries to pop the empty heap). -/
theorem C1_amended (size ttl : Int) (hsz : size ≤ 0) :
    (New size ttl).size = size ∧ (New size ttl).ttl = ttl ∧
    (New size ttl).items.pq = [] ∧ (New size ttl).items.keyToItem = [] ∧
    (New size ttl).evLog = [] :=
  ⟨rfl, rfl, rfl, rfl, rfl⟩

/-- C1 witness: the amended claim at capacity -5 and ttl 60. -/
theorem C1_witness :
    (-5 : Int) ≤ 0 ∧ ((New (-5) 60).size = -5 ∧ (New (-5) 60).ttl = 60 ∧
      (New (-5) 60).items.pq = [] ∧ (New (-5) 60).items.keyToItem = [] ∧
      (New (-5) 60).evLog = []) :=
  ⟨by decide, C1_amended (-5) 60 (by decide)⟩

/-- C8: Get on a key that is not resident returns the zero value and found =
false, and leaves the entire cache state unchanged (in particular no entry is
added or removed, no expire time changes, and the callback log is unchanged). -/
theorem C8_get_absent (c : Cache) (now : Int) (k : Nat)
    (hl : List.lookup k c.items.keyToItem = none) :
    Get c now k = ((0, false), c) := Get_miss hl

/-- C8 witness: a concrete miss on a one-entry cache. -/
theorem C8_witness :
    List.lookup 9 (Put (New 2 10) 0 1 5).items.keyToItem = none ∧
    Get (Put (New 2 10) 0 1 5) 1 9 = ((0, false), Put (New 2 10) 0 1 5) :=
  ⟨by decide, C8_get_absent _ 1 9 (by decide)⟩

/-- C9: for every pair of heap positions whose items are both expired at the
clock reading used by the comparator, Less returns true in both directions, so
the comparator is not asymmetric (not a strict weak ordering) on expired pairs. -/
theorem C9_less_symmetric (s : Items) (now : Int) (i j : Nat)
    (hi : (itemAt s i).expire < now) (hj : (itemAt s j).expire < now) :
    lessB s now i j = true ∧ lessB s now j i = true := by
  constructor
  · rw [lessB, Bool.or_eq_true, decide_eq_true_iff]
    exact Or.inl hi
  · rw [lessB, Bool.or_eq_true, decide_eq_true_iff]
    exact Or.inl hj

/-- C9 witness: two expired entries in a concrete two-entry state. -/
theorem C9_witness :
    (itemAt (Put (Put (New 2 1) 0 1 5) 0 2 6).items 0).expire < 10 ∧
    (itemAt (Put (Put (New 2 1) 0 1 5) 0 2 6).items 1).expire < 10 ∧
    (lessB (Put (Put (New 2 1) 0 1 5) 0 2 6).items 10 0 1 = true ∧
      lessB (Put (Put (New 2 1) 0 1 5) 0 2 6).items 10 1 0 = true) :=
  ⟨by decide, by decide, C9_less_symmetric _ 10 0 1 (by decide) (by decide)⟩

/-- C2: after every monotone sequence of completed operations on a cache built
with positive capacity, at every time tq at or after the last operation, the
entry at the heap root is either already expired at tq or has the earliest
expire time among all resident entries. -/
theorem C2_heap_root (size ttl t tq : Int) (ops : List Op) (hsz : 1 ≤ size)
    (hmono : monoB t ops = true) (htq : endTime t ops ≤ tq)
    (hne : 0 < (reach size ttl ops).items.pq.length) :
    expAt (reach size ttl ops).items 0 < tq ∨
      ∀ m, m < (reach size ttl ops).items.pq.length →
        expAt (reach size ttl ops).items 0 ≤ expAt (reach size ttl ops).items m := by
  obtain ⟨⟨hs, hord, hcap⟩, hsize, httl⟩ := reach_CInv size ttl t ops hsz hmono
  have hordq := HOrd_mono hord htq
  by_cases hroot : expAt (reach size ttl ops).items 0 < tq
  · exact Or.inl hroot
  · refine Or.inr (fun m hm => ?_)
    rcases HOrd_root_min hordq m hm with h1 | h1
    · exact absurd h1 hroot
    · exact h1

/-- C2 witness: two inserts, queried later. -/
theorem C2_witness :
    ((1 : Int) ≤ 2 ∧ monoB 0 [Op.put 0 1 5, Op.put 1 2 6] = true ∧
      endTime 0 [Op.put 0 1 5, Op.put 1 2 6] ≤ 3 ∧
      0 < (reach 2 10 [Op.put 0 1 5, Op.put 1 2 6]).items.pq.length) ∧
    (expAt (reach 2 10 [Op.put 0 1 5, Op.put 1 2 6]).items 0 < 3 ∨
      ∀ m, m < (reach 2 10 [Op.put 0 1 5, Op.put 1 2 6]).items.pq.length →
        expAt (reach 2 10 [Op.put 0 1 5, Op.put 1 2 6]).items 0
          ≤ expAt (reach 2 10 [Op.put 0 1 5, Op.put 1 2 6]).items m) :=
  ⟨⟨by decide, by decide, by decide, by decide⟩,
    C2_heap_root 2 10 0 3 [Op.put 0 1 5, Op.put 1 2 6] (by decide) (by decide)
      (by decide) (by decide)⟩

/-- C3: a Put of a fresh key on a reachable cache at capacity evicts the heap
root: the callback fires exactly once with the root value, and the root is an
expired entry whenever some resident entry is expired at that time, else the
resident entry with the earliest expire time. -/
theorem C3_eviction_selection (size ttl t now : Int) (ops : List Op) (k v : Nat)
    (hsz : 1 ≤ size) (hmono : monoB t ops = true) (hnow : endTime t ops ≤ now)
    (hl : List.lookup k (reach size ttl ops).items.keyToItem = none)
    (hcapq : ((reach size ttl ops).items.pq.length : Int) = size) :
    (Put (reach size ttl ops) now k v).evLog
      = (reach size ttl ops).evLog ++ [(itemAt (reach size ttl ops).items 0).v] ∧
    ((∃ j, j < (reach size ttl ops).items.pq.length ∧
        expAt (reach size ttl ops).items j < now) →
      expAt (reach size ttl ops).items 0 < now) ∧
    ((∀ j, j < (reach size ttl ops).items.pq.length →
        ¬ expAt (reach size ttl ops).items j < now) →
      ∀ j, j < (reach size ttl ops).items.pq.length →
        expAt (reach size ttl ops).items 0 ≤ expAt (reach size ttl ops).items j) := by
  obtain ⟨⟨hs, hordt, hcap⟩, hsize, httl⟩ := reach_CInv size ttl t ops hsz hmono
  have hord := HOrd_mono hordt hnow
  have hpos : 0 < (reach size ttl ops).items.pq.length := by omega
  have hcap2 : ((reach size ttl ops).items.pq.length : Int) = (reach size ttl ops).size := by
    rw [hsize]
    exact hcapq
  obtain ⟨e1, e2, e3, e4, e5, e6, _, _, e9, e10⟩ := evict_pres hs hord hpos
  refine ⟨?_, expired_root hord hpos, fresh_root hord hpos⟩
  rw [Put_fresh_cap hl hcap2]
  have hadd : (add (evict (reach size ttl ops) now) now
      { k := k, v := v, expire := now + (reach size ttl ops).ttl, index := 0 }).evLog
      = (evict (reach size ttl ops) now).evLog := rfl
  rw [hadd, e4]

/-- C3 witness: capacity 1, a resident entry, then a fresh Put evicting it. -/
theorem C3_witness :
    ((1 : Int) ≤ 1 ∧ monoB 0 [Op.put 0 1 5] = true ∧ endTime 0 [Op.put 0 1 5] ≤ 2 ∧
      List.lookup 2 (reach 1 10 [Op.put 0 1 5]).items.keyToItem = none ∧
      ((reach 1 10 [Op.put 0 1 5]).items.pq.length : Int) = 1) ∧
    (Put (reach 1 10 [Op.put 0 1 5]) 2 2 6).evLog
      = (reach 1 10 [Op.put 0 1 5]).evLog ++ [(itemAt (reach 1 10 [Op.put 0 1 5]).items 0).v] :=
  ⟨⟨by decide, by decide, by decide, by decide, by decide⟩,
    (C3_eviction_selection 1 10 0 2 [Op.put 0 1 5] 2 6 (by decide) (by decide) (by decide)
      (by decide) (by decide)).1⟩

/-- C6: Get on a resident key whose TTL has already lapsed still returns the
stored value with found = true, and refreshes the expire time of the entry to
now + ttl, resurrecting it; the expired-but-resident entry is never treated as
absent. -/
theorem C6_get_expired (size ttl t now : Int) (ops : List Op) (k id : Nat)
    (hsz : 1 ≤ size) (hmono : monoB t ops = true) (hnow : endTime t ops ≤ now)
    (hl : List.lookup k (reach size ttl ops).items.keyToItem = some id)
    (hexp : (getItem (reach size ttl ops).items id).expire < now) :
    (Get (reach size ttl ops) now k).1
      = ((getItem (reach size ttl ops).items id).v, true) ∧
    (getItem (Get (reach size ttl ops) now k).2.items id).expire = now + ttl := by
  obtain ⟨⟨hs, hordt, hcap⟩, hsize, httl⟩ := reach_CInv size ttl t ops hsz hmono
  have hord := HOrd_mono hordt hnow
  obtain ⟨hid, _⟩ := lookup_mem_pq hs hl
  obtain ⟨r1, r2, r3, r4, r5, r6, r7, r8, r9, r10, r11⟩ := refresh_pres hs hord hid
  rw [Get_hit hl]
  constructor
  · show ((getItem (refresh (reach size ttl ops) now id).items id).v, true) = _
    rw [(r5 id).2]
  · show (getItem (refresh (reach size ttl ops) now id).items id).expire = now + ttl
    rw [r7, httl]

/-- C6 witness: ttl 1, entry inserted at time 0, read at time 5 when expired. -/
theorem C6_witness :
    ((1 : Int) ≤ 2 ∧ monoB 0 [Op.put 0 1 7] = true ∧ endTime 0 [Op.put 0 1 7] ≤ 5 ∧
      List.lookup 1 (reach 2 1 [Op.put 0 1 7]).items.keyToItem = some 0 ∧
      (getItem (reach 2 1 [Op.put 0 1 7]).items 0).expire < 5) ∧
    ((Get (reach 2 1 [Op.put 0 1 7]) 5 1).1
      = ((getItem (reach 2 1 [Op.put 0 1 7]).items 0).v, true) ∧
    (getItem (Get (reach 2 1 [Op.put 0 1 7]) 5 1).2.items 0).expire = 5 + 1) :=
  ⟨⟨by decide, by decide, by decide, by decide, by decide⟩,
    C6_get_expired 2 1 0 5 [Op.put 0 1 7] 1 0 (by decide) (by decide) (by decide)
      (by decide) (by decide)⟩

/-- C7: in every reachable state the Key Index and the Expiration Index agree:
a key has a binding in keyToItem exactly when some heap entry carries it, the
heap entries carry pairwise distinct keys, and keyToItem binds each key at
most once. -/
theorem C7_bijection (size ttl t : Int) (ops : List Op) (hsz : 1 ≤ size)
    (hmono : monoB t ops = true) :
    (∀ k, (∃ id, List.lookup k (reach size ttl ops).items.keyToItem = some id)
      ↔ k ∈ pqKeys (reach size ttl ops).items) ∧
    (pqKeys (reach size ttl ops).items).Nodup ∧
    ((reach size ttl ops).items.keyToItem.map Prod.fst).Nodup := by
  obtain ⟨⟨hs, hordt, hcap⟩, hsize, httl⟩ := reach_CInv size ttl t ops hsz hmono
  refine ⟨?_, hs.keysNodup, hs.mapNodup⟩
  intro k
  constructor
  · rintro ⟨id, hid⟩
    obtain ⟨h1, h2⟩ := (hs.mapKeys k id).1 hid
    exact List.mem_map.2 ⟨id, h1, h2⟩
  · intro hk
    rcases List.mem_map.1 hk with ⟨id, hid, hkey⟩
    exact ⟨id, (hs.mapKeys k id).2 ⟨hid, hkey⟩⟩

/-- C7 witness: a state reached by a put, a refresh and a removal. -/
theorem C7_witness :
    ((1 : Int) ≤ 2 ∧ monoB 0 [Op.put 0 1 5, Op.put 1 2 6, Op.remove 2 1] = true) ∧
    ((∀ k, k < 5 →
      ((∃ id, List.lookup k (reach 2 10 [Op.put 0 1 5, Op.put 1 2 6,
        Op.remove 2 1]).items.keyToItem = some id)
      ↔ k ∈ pqKeys (reach 2 10 [Op.put 0 1 5, Op.put 1 2 6, Op.remove 2 1]).items)) ∧
    (pqKeys (reach 2 10 [Op.put 0 1 5, Op.put 1 2 6, Op.remove 2 1]).items).Nodup ∧
    ((reach 2 10 [Op.put 0 1 5, Op.put 1 2 6,
      Op.remove 2 1]).items.keyToItem.map Prod.fst).Nodup) := by
  have h := C7_bijection 2 10 0 [Op.put 0 1 5, Op.put 1 2 6, Op.remove 2 1]
    (by decide) (by decide)
  exact ⟨⟨by decide, by decide⟩, fun k _ => h.1 k, h.2.1, h.2.2⟩

/-- C10: Put then an immediate Get of the same key returns the stored value
with found = true, on every reachable cache with capacity at least 1, for
every key and value, with the Get at any time not before the Put. -/
theorem C10_put_get (size ttl t now now2 : Int) (ops : List Op) (k v : Nat)
    (hsz : 1 ≤ size) (hmono : monoB t ops = true) (hnow : endTime t ops ≤ now)
    (hnow2 : now ≤ now2) :
    (Get (Put (reach size ttl ops) now k v) now2 k).1 = (v, true) := by
  obtain ⟨⟨hs, hordt, hcap⟩, hsize, httl⟩ := reach_CInv size ttl t ops hsz hmono
  have hord := HOrd_mono hordt hnow
  have hput := applyOp_CInv (c := reach size ttl ops) (t := now) (Op.put now k v)
    (by rw [hsize]; exact hsz) ⟨hs, hord, hcap⟩ (le_refl now)
  obtain ⟨⟨hs1, hord1, hcap1⟩, hsize1, httl1⟩ := hput
  have hs1b : SWF (Put (reach size ttl ops) now k v).items := hs1
  have hord1b : HOrd (Put (reach size ttl ops) now k v).items now
      (Put (reach size ttl ops) now k v).items.pq.length := hord1
  have hfound : ∃ id, List.lookup k (Put (reach size ttl ops) now k v).items.keyToItem
      = some id ∧ (getItem (Put (reach size ttl ops) now k v).items id).v = v := by
    cases hl : List.lookup k (reach size ttl ops).items.keyToItem with
    | some id =>
      obtain ⟨hid, _⟩ := lookup_mem_pq hs hl
      obtain ⟨u1, u2, u3, u4, u5, u6, u7, u8, u9, u10, u11, u12⟩ :=
        update_pres v hs hord hid
      refine ⟨id, ?_, ?_⟩
      · rw [Put_hit hl, u4]
        exact hl
      · rw [Put_hit hl]
        exact u7
    | none =>
      by_cases hcapq : ((reach size ttl ops).items.pq.length : Int)
          = (reach size ttl ops).size
      · have hpos : 0 < (reach size ttl ops).items.pq.length := by
          rw [hsize] at hcapq
          omega
        obtain ⟨e1, e2, e3, e4, e5, e6, _, _, e9, e10⟩ := evict_pres hs hord hpos
        have hkne : k ≠ keyAt (reach size ttl ops).items 0 := by
          intro he
          have h2 := resident_key_lookup hs hpos
          rw [← he, hl] at h2
          cases h2
        have hfresh : ({ k := k, v := v, expire := now + (reach size ttl ops).ttl, index := 0 } : Item).k ∉ pqKeys (evict (reach size ttl ops) now).items := by
          show k ∉ pqKeys (evict (reach size ttl ops) now).items
          rw [← lookup_none_iff e1 k, e6 k hkne]
          exact hl
        obtain ⟨a1, a2, a3, ⟨id, a4a, a4b, a4c, a4d⟩, a5, a6, a7, a8, a9⟩ :=
          add_pres _ e1 e2 hfresh
        refine ⟨id, ?_, ?_⟩
        · rw [Put_fresh_cap hl hcapq]
          exact a4a
        · rw [Put_fresh_cap hl hcapq]
          exact a4c
      · have hfresh : ({ k := k, v := v, expire := now + (reach size ttl ops).ttl, index := 0 } : Item).k ∉ pqKeys (reach size ttl ops).items := by
          show k ∉ pqKeys (reach size ttl ops).items
          rw [← lookup_none_iff hs k]
          exact hl
        obtain ⟨a1, a2, a3, ⟨id, a4a, a4b, a4c, a4d⟩, a5, a6, a7, a8, a9⟩ :=
          add_pres _ hs hord hfresh
        refine ⟨id, ?_, ?_⟩
        · rw [Put_fresh_nocap hl hcapq]
          exact a4a
        · rw [Put_fresh_nocap hl hcapq]
          exact a4c
  obtain ⟨id, hl1, hv1⟩ := hfound
  obtain ⟨hid1, _⟩ := lookup_mem_pq hs1b hl1
  obtain ⟨g1, g2, g3, g4, g5, g6, g7, g8, g9, g10, g11⟩ :=
    refresh_pres hs1b (HOrd_mono hord1b hnow2) hid1
  rw [Get_hit hl1]
  show ((getItem (refresh (Put (reach size ttl ops) now k v) now2 id).items id).v, true)
    = (v, true)
  rw [(g5 id).2, hv1]

/-- C10 witness: put then get on a capacity-1 cache that must evict. -/
theorem C10_witness :
    ((1 : Int) ≤ 1 ∧ monoB 0 [Op.put 0 1 5] = true ∧ endTime 0 [Op.put 0 1 5] ≤ 1 ∧
      (1 : Int) ≤ 1) ∧
    (Get (Put (reach 1 10 [Op.put 0 1 5]) 1 2 6) 1 2).1 = (6, true) :=
  ⟨⟨by decide, by decide, by decide, by decide⟩,
    C10_put_get 1 10 0 1 1 [Op.put 0 1 5] 2 6 (by decide) (by decide) (by decide)
      (by decide)⟩

/-- C4: the eviction callback fires exactly once per entry removal and never
otherwise. On every reachable cache: a fresh-key Put at capacity appends
exactly one callback value (the evicted root value) to the log; a fresh-key
Put below capacity appends none; a Put that overwrites an existing key appends
none; Get (hit or miss) appends none; Remove of a resident key appends exactly
the removed value, and a second Remove of the same key is a no-op appending
none; Remove of an absent key is a no-op appending none. -/
theorem C4_callback_exactly_once (size ttl t now now2 : Int) (ops : List Op)
    (hsz : 1 ≤ size) (hmono : monoB t ops = true) (hnow : endTime t ops ≤ now) :
    (∀ k v, List.lookup k (reach size ttl ops).items.keyToItem = none →
      ((reach size ttl ops).items.pq.length : Int) = size →
      (Put (reach size ttl ops) now k v).evLog
        = (reach size ttl ops).evLog ++ [(itemAt (reach size ttl ops).items 0).v]) ∧
    (∀ k v, List.lookup k (reach size ttl ops).items.keyToItem = none →
      ((reach size ttl ops).items.pq.length : Int) ≠ size →
      (Put (reach size ttl ops) now k v).evLog = (reach size ttl ops).evLog) ∧
    (∀ k v id, List.lookup k (reach size ttl ops).items.keyToItem = some id →
      (Put (reach size ttl ops) now k v).evLog = (reach size ttl ops).evLog) ∧
    (∀ k, (Get (reach size ttl ops) now k).2.evLog = (reach size ttl ops).evLog) ∧
    (∀ k id, List.lookup k (reach size ttl ops).items.keyToItem = some id →
      (Remove (reach size ttl ops) now k).evLog
          = (reach size ttl ops).evLog ++ [(getItem (reach size ttl ops).items id).v] ∧
        Remove (Remove (reach size ttl ops) now k) now2 k
          = Remove (reach size ttl ops) now k) ∧
    (∀ k, List.lookup k (reach size ttl ops).items.keyToItem = none →
      Remove (reach size ttl ops) now k = reach size ttl ops) := by
  obtain ⟨⟨hs, hordt, hcap⟩, hsize, httl⟩ := reach_CInv size ttl t ops hsz hmono
  have hord := HOrd_mono hordt hnow
  refine ⟨?_, ?_, ?_, ?_, ?_, ?_⟩
  · intro k v hl hcapq
    have hcap2 : ((reach size ttl ops).items.pq.length : Int) = (reach size ttl ops).size := by
      rw [hsize]
      exact hcapq
    have hpos : 0 < (reach size ttl ops).items.pq.length := by omega
    obtain ⟨e1, e2, e3, e4, _, _, _, _, _, _⟩ := evict_pres hs hord hpos
    rw [Put_fresh_cap hl hcap2]
    have hadd : (add (evict (reach size ttl ops) now) now
        { k := k, v := v, expire := now + (reach size ttl ops).ttl, index := 0 }).evLog
        = (evict (reach size ttl ops) now).evLog := rfl
    rw [hadd, e4]
  · intro k v hl hcapq
    have hcap2 : ¬ ((reach size ttl ops).items.pq.length : Int)
        = (reach size ttl ops).size := by
      rw [hsize]
      exact hcapq
    rw [Put_fresh_nocap hl hcap2]
    rfl
  · intro k v id hl
    rw [Put_hit hl]
    rfl
  · intro k
    cases hl : List.lookup k (reach size ttl ops).items.keyToItem with
    | some id =>
      rw [Get_hit hl]
      rfl
    | none =>
      rw [Get_miss hl]
  · intro k id hl
    obtain ⟨hid, hkey⟩ := lookup_mem_pq hs hl
    obtain ⟨d1, d2, d3, d4, d5, d6, _, _, _, _⟩ := deleteItem_pres hs hord hid
    constructor
    · rw [Remove_hit hl]
      exact d4
    · rw [Remove_hit hl]
      refine Remove_miss ?_
      rw [← hkey]
      exact d5
  · intro k hl
    exact Remove_miss hl

/-- C4 witness: cache of capacity 1 with one resident entry; Remove fires the
callback once with its value and a second Remove is a no-op. -/
theorem C4_witness :
    ((1 : Int) ≤ 1 ∧ monoB 0 [Op.put 0 1 5] = true ∧ endTime 0 [Op.put 0 1 5] ≤ 1 ∧
      List.lookup 1 (reach 1 10 [Op.put 0 1 5]).items.keyToItem = some 0) ∧
    ((Remove (reach 1 10 [Op.put 0 1 5]) 1 1).evLog
        = (reach 1 10 [Op.put 0 1 5]).evLog ++ [(getItem (reach 1 10 [Op.put 0 1 5]).items 0).v] ∧
      Remove (Remove (reach 1 10 [Op.put 0 1 5]) 1 1) 2 1
        = Remove (reach 1 10 [Op.put 0 1 5]) 1 1) :=
  ⟨⟨by decide, by decide, by decide, by decide⟩,
    (C4_callback_exactly_once 1 10 0 1 2 [Op.put 0 1 5] (by decide) (by decide)
      (by decide)).2.2.2.2.1 1 0 (by decide)⟩

/-! ### Capacity under Put-only sequences -/

theorem pqKeys_card {s : Items} (hs : SWF s) : (pqKeys s).toFinset.card = s.pq.length := by
  rw [List.toFinset_card_of_nodup hs.keysNodup, pqKeys, List.length_map]

theorem key_mem_toFinset {c : Cache} (hs : SWF c.items) {k id : Nat}
    (hl : List.lookup k c.items.keyToItem = some id) :
    k ∈ (pqKeys c.items).toFinset := by
  obtain ⟨h1, h2⟩ := (hs.mapKeys k id).1 hl
  exact List.mem_toFinset.2 (List.mem_map.2 ⟨id, h1, h2⟩)

theorem key_not_mem_toFinset {c : Cache} (hs : SWF c.items) {k : Nat}
    (hl : List.lookup k c.items.keyToItem = none) :
    k ∉ (pqKeys c.items).toFinset := by
  intro hmem
  exact (lookup_none_iff hs k).1 hl (List.mem_toFinset.1 hmem)

theorem putsOnly_run (ops : List Op) :
    ∀ (c : Cache) (t : Int) (P : Finset Nat), 1 ≤ c.size → CInv c t →
      monoB t ops = true → putsOnly ops = true →
      (pqKeys c.items).toFinset ⊆ P →
      ((c.items.pq.length : Int) = min c.size (P.card : Int)) →
      (((P.card : Int)) ≤ c.size → (pqKeys c.items).toFinset = P) →
      (pqKeys (runOps c ops).items).toFinset ⊆ P ∪ (putKeys ops).toFinset ∧
      (((runOps c ops).items.pq.length : Int)
        = min c.size ((P ∪ (putKeys ops).toFinset).card : Int)) ∧
      (((P ∪ (putKeys ops).toFinset).card : Int) ≤ c.size →
        (pqKeys (runOps c ops).items).toFinset = P ∪ (putKeys ops).toFinset) := by
  induction ops with
  | nil =>
    intro c t P hsz hinv hmono hputs hSP hcard hfull
    show (pqKeys c.items).toFinset ⊆ P ∪ (putKeys []).toFinset ∧ _ ∧ _
    rw [show putKeys [] = [] from rfl, List.toFinset_nil, Finset.union_empty]
    exact ⟨hSP, hcard, hfull⟩
  | cons op rest ih =>
    intro c t P hsz hinv hmono hputs hSP hcard hfull
    cases op with
    | get n2 k2 => exact absurd hputs (by rw [show putsOnly (Op.get n2 k2 :: rest) = false from rfl]; simp)
    | remove n2 k2 => exact absurd hputs (by rw [show putsOnly (Op.remove n2 k2 :: rest) = false from rfl]; simp)
    | put now k v =>
      rw [monoB, Bool.and_eq_true, decide_eq_true_iff] at hmono
      obtain ⟨htn, hmono2⟩ := hmono
      have hputs2 : putsOnly rest = true := hputs
      obtain ⟨hs, hordt, hcap⟩ := hinv
      have hordn : HOrd c.items now c.items.pq.length := HOrd_mono hordt htn
      obtain ⟨hinv1, hsize1, httl1⟩ := applyOp_CInv (c := c) (t := t) (Op.put now k v)
        hsz ⟨hs, hordt, hcap⟩ htn
      have hinv1b : CInv (Put c now k v) now := hinv1
      have hsize1b : (Put c now k v).size = c.size := hsize1
      have hstep : runOps c (Op.put now k v :: rest) = runOps (Put c now k v) rest := rfl
      have hkeys : (putKeys (Op.put now k v :: rest)).toFinset
          = insert k (putKeys rest).toFinset := by
        rw [show putKeys (Op.put now k v :: rest) = k :: putKeys rest from rfl,
          List.toFinset_cons]
      have hunion : P ∪ (putKeys (Op.put now k v :: rest)).toFinset
          = insert k P ∪ (putKeys rest).toFinset := by
        rw [hkeys, Finset.union_insert k P ((putKeys rest).toFinset),
          Finset.insert_union]
      have hcardS : (pqKeys c.items).toFinset.card = c.items.pq.length := pqKeys_card hs
      have hmain : (pqKeys (Put c now k v).items).toFinset ⊆ insert k P ∧
          (((Put c now k v).items.pq.length : Int)
            = min c.size ((insert k P).card : Int)) ∧
          ((((insert k P).card : Int)) ≤ c.size →
            (pqKeys (Put c now k v).items).toFinset = insert k P) := by
        cases hl : List.lookup k c.items.keyToItem with
        | some id =>
          obtain ⟨hid, hkeyid⟩ := lookup_mem_pq hs hl
          obtain ⟨u1, u2, u3, u4, u5, u6, u7, u8, u9, u10, u11, u12⟩ :=
            update_pres v hs hordn hid
          have hkS : k ∈ (pqKeys c.items).toFinset := key_mem_toFinset hs hl
          have hPeq : insert k P = P := Finset.insert_eq_self.2 (hSP hkS)
          have hSeq : (pqKeys (Put c now k v).items).toFinset
              = (pqKeys c.items).toFinset := by
            rw [Put_hit hl]
            exact List.toFinset_eq_of_perm _ _ (pqKeys_perm_of u9 u5)
          rw [hPeq, hSeq]
          refine ⟨hSP, ?_, hfull⟩
          rw [Put_hit hl, u3]
          exact hcard
        | none =>
          have hkNS : k ∉ (pqKeys c.items).toFinset := key_not_mem_toFinset hs hl
          by_cases hcapq : (c.items.pq.length : Int) = c.size
          · have hpos : 0 < c.items.pq.length := by omega
            obtain ⟨e1, e2, e3, e4, e5, e6, e7, e8, e9, e10⟩ := evict_pres hs hordn hpos
            have hkne : k ≠ keyAt c.items 0 := by
              intro he
              have h2 := resident_key_lookup hs hpos
              rw [← he, hl] at h2
              cases h2
            have hfresh : ({ k := k, v := v, expire := now + c.ttl, index := 0 } : Item).k
                ∉ pqKeys (evict c now).items := by
              show k ∉ pqKeys (evict c now).items
              rw [← lookup_none_iff e1 k, e6 k hkne]
              exact hl
            obtain ⟨a1, a2, a3, a4, a5, a6, a7, a8, a9⟩ := add_pres _ e1 e2 hfresh
            have hputeq : Put c now k v = add (evict c now) now
                { k := k, v := v, expire := now + c.ttl, index := 0 } :=
              Put_fresh_cap hl hcapq
            have hSev : ((pqKeys (evict c now).items) ++ [keyAt c.items 0]).toFinset
                = (pqKeys c.items).toFinset :=
              List.toFinset_eq_of_perm _ _ e8
            have hSevSub : (pqKeys (evict c now).items).toFinset
                ⊆ (pqKeys c.items).toFinset := by
              rw [← hSev, List.toFinset_append]
              exact Finset.subset_union_left
            have hS1 : (pqKeys (Put c now k v).items).toFinset
                = insert k (pqKeys (evict c now).items).toFinset := by
              rw [hputeq, List.toFinset_eq_of_perm _ _ a6, List.toFinset_append]
              have hsing : (([({ k := k, v := v, expire := now + c.ttl, index := 0 }
                  : Item).k]).toFinset : Finset Nat) = {k} := rfl
              rw [hsing, Finset.union_comm]
              exact (Finset.insert_eq k _).symm
            have hlen1 : (Put c now k v).items.pq.length = c.items.pq.length := by
              rw [hputeq, a3, e3]
              omega
            have hcardle : (c.size : Int) ≤ ((insert k P).card : Int) := by
              have h1 : (pqKeys c.items).toFinset.card ≤ P.card := Finset.card_le_card hSP
              have h2 : P.card ≤ (insert k P).card :=
                Finset.card_le_card (Finset.subset_insert k P)
              have h3 := hcardS
              push_cast
              omega
            refine ⟨?_, ?_, ?_⟩
            · rw [hS1]
              exact Finset.insert_subset_insert k (hSevSub.trans hSP)
            · rw [hlen1, min_eq_left hcardle]
              exact hcapq
            · intro hPle
              have hs1 : SWF (Put c now k v).items := hinv1b.1
              have hS1card : (pqKeys (Put c now k v).items).toFinset.card
                  = (Put c now k v).items.pq.length := pqKeys_card hs1
              have hcardle2 : (insert k P).card
                  ≤ (pqKeys (Put c now k v).items).toFinset.card := by
                have h5 : ((insert k P).card : Int)
                    ≤ ((pqKeys (Put c now k v).items).toFinset.card : Int) := by
                  rw [hS1card, hlen1]
                  omega
                exact_mod_cast h5
              exact Finset.eq_of_subset_of_card_le
                (by rw [hS1]; exact Finset.insert_subset_insert k (hSevSub.trans hSP))
                hcardle2
          · have hfresh : ({ k := k, v := v, expire := now + c.ttl, index := 0 } : Item).k
                ∉ pqKeys c.items := by
              show k ∉ pqKeys c.items
              rw [← lookup_none_iff hs k]
              exact hl
            obtain ⟨a1, a2, a3, a4, a5, a6, a7, a8, a9⟩ := add_pres _ hs hordn hfresh
            have hputeq : Put c now k v
                = add c now { k := k, v := v, expire := now + c.ttl, index := 0 } :=
              Put_fresh_nocap hl hcapq
            have hS1 : (pqKeys (Put c now k v).items).toFinset
                = insert k (pqKeys c.items).toFinset := by
              rw [hputeq, List.toFinset_eq_of_perm _ _ a6, List.toFinset_append]
              have hsing : (([({ k := k, v := v, expire := now + c.ttl, index := 0 }
                  : Item).k]).toFinset : Finset Nat) = {k} := rfl
              rw [hsing, Finset.union_comm]
              exact (Finset.insert_eq k _).symm
            have hlen1 : (Put c now k v).items.pq.length = c.items.pq.length + 1 := by
              rw [hputeq, a3]
            have hltsz : (c.items.pq.length : Int) < c.size := by omega
            have hkP : k ∉ P := by
              intro hkP
              by_cases hPle : (P.card : Int) ≤ c.size
              · exact hkNS (by rw [hfull hPle]; exact hkP)
              · rw [min_eq_left (by omega)] at hcard
                exact hcapq hcard
            have hPcard : (P.card : Int) = (c.items.pq.length : Int) := by
              by_cases hPle : (P.card : Int) ≤ c.size
              · rw [min_eq_right hPle] at hcard
                omega
              · rw [min_eq_left (by omega)] at hcard
                exact absurd hcard hcapq
            have hP1card : ((insert k P).card : Int) = (P.card : Int) + 1 := by
              rw [Finset.card_insert_of_not_mem hkP]
              push_cast
              ring
            refine ⟨?_, ?_, ?_⟩
            · rw [hS1]
              exact Finset.insert_subset_insert k hSP
            · rw [hlen1, min_eq_right (by omega)]
              push_cast
              omega
            · intro hPle
              have hSP2 : (pqKeys c.items).toFinset = P := hfull (by omega)
              rw [hS1, hSP2]
      obtain ⟨m1, m2, m3⟩ := ih (Put c now k v) now (insert k P)
        (by rw [hsize1b]; exact hsz) hinv1b hmono2 hputs2 hmain.1
        (by rw [hsize1b]; exact hmain.2.1)
        (by rw [hsize1b]; exact hmain.2.2)
      rw [hstep, hunion]
      refine ⟨m1, ?_, ?_⟩
      · rw [m2, hsize1b]
      · intro hle
        exact m3 (by rw [hsize1b]; exact hle)

/-- C5: for every monotone sequence of Put calls on a cache built with
capacity at least 1, after the sequence the number of resident entries is at
most the capacity, and equals the minimum of the capacity and the number of
distinct keys put so far (here proved with no proviso about TTL expiry, which
never changes the resident count). -/
theorem C5_capacity (size ttl t : Int) (ops : List Op) (hsz : 1 ≤ size)
    (hmono : monoB t ops = true) (hputs : putsOnly ops = true) :
    ((reach size ttl ops).items.pq.length : Int) ≤ size ∧
    ((reach size ttl ops).items.pq.length : Int)
      = min size ((putKeys ops).toFinset.card : Int) := by
  have hnew : CInv (New size ttl) t := New_CInv size ttl t (by omega)
  have hS0 : (pqKeys (New size ttl).items).toFinset = (∅ : Finset Nat) := rfl
  have h := putsOnly_run ops (New size ttl) t ∅ hsz hnew hmono hputs
    (by rw [hS0]) (by
      show ((0 : Nat) : Int) = min size ((0 : Nat) : Int)
      rw [min_eq_right (by omega : ((0 : Nat) : Int) ≤ size)])
    (fun _ => hS0)
  obtain ⟨h1, h2, h3⟩ := h
  rw [Finset.empty_union] at h2
  have hsz2 : (New size ttl).size = size := rfl
  rw [hsz2] at h2
  constructor
  · rw [show reach size ttl ops = runOps (New size ttl) ops from rfl, h2]
    exact min_le_left _ _
  · rw [show reach size ttl ops = runOps (New size ttl) ops from rfl, h2]

/-- C5 witness: capacity 2, four puts over three distinct keys. -/
theorem C5_witness :
    ((1 : Int) ≤ 2 ∧
      monoB 0 [Op.put 0 1 5, Op.put 1 2 6, Op.put 2 1 7, Op.put 3 3 8] = true ∧
      putsOnly [Op.put 0 1 5, Op.put 1 2 6, Op.put 2 1 7, Op.put 3 3 8] = true) ∧
    (((reach 2 10 [Op.put 0 1 5, Op.put 1 2 6, Op.put 2 1 7,
        Op.put 3 3 8]).items.pq.length : Int) ≤ 2 ∧
      ((reach 2 10 [Op.put 0 1 5, Op.put 1 2 6, Op.put 2 1 7,
        Op.put 3 3 8]).items.pq.length : Int)
        = min 2 (((putKeys [Op.put 0 1 5, Op.put 1 2 6, Op.put 2 1 7,
          Op.put 3 3 8]).toFinset.card : Int))) :=
  ⟨⟨by decide, by decide, by decide⟩,
    C5_capacity 2 10 0 [Op.put 0 1 5, Op.put 1 2 6, Op.put 2 1 7, Op.put 3 3 8]
      (by decide) (by decide) (by decide)⟩

end Lru
